import Mathlib

/-!
A shallow embedding of the `yolo_core` limit order book
(src/crates/yolo_core/src/orderbook/mod.rs, order_book/limit.rs,
orderbook/order.rs) together with proofs about it.

Modelling conventions:
* `rust_decimal::Decimal` is modelled as `ℚ` (exact arithmetic; the program
  only adds, subtracts and compares decimals).
* `Uuid` is modelled as `Nat` (an ordered type with decidable equality).
* The nanosecond timestamp (`i64`) is modelled as `Int`.
* `HashMap` is modelled as an association list; the iteration order of the
  Rust `HashMap` is unspecified, and the model fixes it to insertion order,
  which is one admissible realisation.
* `BTreeMap` / `BTreeSet` are modelled as lists kept sorted by the key
  ordering; iteration is list order.
* `&mut` state is threaded explicitly: every mutating operation returns the
  updated value(s) next to its Rust return value.
-/

set_option maxHeartbeats 1000000

namespace Yolo

/-- Model of `Side` (orderbook/order.rs). -/
inductive Side where
  | Bid
  | Ask
deriving DecidableEq

/-- Model of `Side::opposite`. -/
def Side.opposite : Side → Side
  | Side.Bid => Side.Ask
  | Side.Ask => Side.Bid

/-- Model of `Order` (orderbook/order.rs): id, remaining size, side, arrival timestamp. -/
structure Order where
  id : Nat
  size : ℚ
  side : Side
  timestamp : Int
deriving DecidableEq

/-- Model of `Order::is_filled`: `size == dec!(0)`. -/
def Order.is_filled (o : Order) : Bool := decide (o.size = 0)

/-- Model of `Match` (orderbook/mod.rs) / `OrderMatch` (order_book/limit.rs):
one trade leg, holding post-mutation snapshots of the two orders. -/
structure OrderMatch where
  ask : Order
  bid : Order
  size_filled : ℚ
  price : ℚ
deriving DecidableEq

/-- Model of `OrderBookError` (orderbook/mod.rs). -/
inductive OrderBookError where
  | InconsistentState
  | LimitNotFound (price : ℚ)
  | OrderNotFound (id : Nat)
  | NotEnoughVolume (side : Side) (expected_volume : ℚ) (actual_volume : ℚ)
deriving DecidableEq

/-- The key the `OrderByTimestamp` ordering compares: (timestamp, id) only;
size and side are ignored (orderbook/order.rs, `OrderByTimestamp::cmp`). -/
def tsKey (o : Order) : Int × Nat := (o.timestamp, o.id)

/-- Model of `BTreeSet<OrderByTimestamp>::insert`: insert into the sorted list at the
position given by the (timestamp, id) ordering; inserting an element whose
key is already present leaves the set unchanged (keeps the old element). -/
def insertByTimestamp (o : Order) : List Order → List Order
  | [] => [o]
  | x :: xs =>
    if o.timestamp < x.timestamp ∨ (o.timestamp = x.timestamp ∧ o.id < x.id) then
      o :: x :: xs
    else if o.timestamp = x.timestamp ∧ o.id = x.id then
      x :: xs
    else
      x :: insertByTimestamp o xs

/-- Model of `BTreeSet<OrderByTimestamp>::remove`: drop the first (hence, in a set, the
only) element with the same (timestamp, id) key. -/
def removeByTimestamp (o : Order) : List Order → List Order
  | [] => []
  | x :: xs =>
    if o.timestamp = x.timestamp ∧ o.id = x.id then xs
    else x :: removeByTimestamp o xs

/-- Model of `HashMap<Uuid, Order>::insert`: replace the entry with the same id if one
exists, otherwise add the new entry (at the end, in the modelled iteration
order). -/
def insertByUuid (o : Order) : List Order → List Order
  | [] => [o]
  | x :: xs => if x.id = o.id then o :: xs else x :: insertByUuid o xs

/-- Model of `HashMap<Uuid, Order>::remove`: remove and return the entry with the
given id, if present. -/
def removeByUuid (id : Nat) : List Order → Option (Order × List Order)
  | [] => none
  | x :: xs =>
    if x.id = id then some (x, xs)
    else (removeByUuid id xs).map (fun p => (p.1, x :: p.2))

/-- Model of `Limit` (order_book/limit.rs). -/
structure Limit where
  price : ℚ
  orders_by_uuid : List Order
  orders_by_timestamp : List Order
  total_volume : ℚ
deriving DecidableEq

/-- Model of `Limit::new`. -/
def Limit.new (price : ℚ) : Limit :=
  { price := price, orders_by_uuid := [], orders_by_timestamp := [], total_volume := 0 }

/-- Model of `Limit::add_order`: insert into both indices, add the size to
`total_volume`. -/
def Limit.add_order (l : Limit) (o : Order) : Limit :=
  { l with
    orders_by_uuid := insertByUuid o l.orders_by_uuid
    orders_by_timestamp := insertByTimestamp o l.orders_by_timestamp
    total_volume := l.total_volume + o.size }

/-- Model of `Limit::remove_order`: remove from both indices, subtract the removed
order's (current) size from `total_volume`, return the removed order. -/
def Limit.remove_order (l : Limit) (id : Nat) : Option (Order × Limit) :=
  match removeByUuid id l.orders_by_uuid with
  | none => none
  | some (o, rest) =>
    some (o, { l with
      orders_by_uuid := rest
      orders_by_timestamp := removeByTimestamp o l.orders_by_timestamp
      total_volume := l.total_volume - o.size })

/-- Model of `Limit::remove_order` with the `Option` result discarded, as the removal
loop at the end of `Limit::fill` uses it. -/
def Limit.remove_op (l : Limit) (id : Nat) : Limit :=
  match l.remove_order id with
  | none => l
  | some p => p.2

/-- Model of `Limit::is_empty`. -/
def Limit.is_empty (l : Limit) : Bool := decide (l.orders_by_uuid = [])

/-- Result of `Limit::match_orders`: the two orders after mutation, and the
produced match record. -/
structure MatchRes where
  order1 : Order
  order2 : Order
  m : OrderMatch
deriving DecidableEq

/-- Model of `Limit::match_orders`. Splits (order1, order2) into (bid, ask) by side,
transfers `min` of the two sizes, and records a match whose order snapshots
are taken after the mutation. The same-side case is `unreachable!` in the
source (it panics); the model returns the inputs unchanged with a zero-size
match record, and no reachable book state exercises that case. -/
def match_orders (o1 o2 : Order) (price : ℚ) : MatchRes :=
  match o1.side, o2.side with
  | Side.Bid, Side.Ask =>
    if o1.size ≤ o2.size then
      let o1' : Order := { o1 with size := 0 }
      let o2' : Order := { o2 with size := o2.size - o1.size }
      ⟨o1', o2', ⟨o2', o1', o1.size, price⟩⟩
    else
      let o1' : Order := { o1 with size := o1.size - o2.size }
      let o2' : Order := { o2 with size := 0 }
      ⟨o1', o2', ⟨o2', o1', o2.size, price⟩⟩
  | Side.Ask, Side.Bid =>
    if o2.size ≤ o1.size then
      let o1' : Order := { o1 with size := o1.size - o2.size }
      let o2' : Order := { o2 with size := 0 }
      ⟨o1', o2', ⟨o1', o2', o2.size, price⟩⟩
    else
      let o1' : Order := { o1 with size := 0 }
      let o2' : Order := { o2 with size := o2.size - o1.size }
      ⟨o1', o2', ⟨o1', o2', o1.size, price⟩⟩
  | _, _ => ⟨o1, o2, ⟨o2, o1, 0, price⟩⟩

/-- Result of the loop inside `Limit::fill`. -/
structure LoopRes where
  order : Order
  residents : List Order
  trades : List OrderMatch
  filled : List Nat
deriving DecidableEq

/-- The loop inside `Limit::fill`: traverse `orders_by_uuid` in iteration
order, matching the aggressor against each resident; record the ids of
residents that reached size zero; break as soon as the aggressor is filled
(the break test runs after the match is pushed). -/
def fillLoop (price : ℚ) (aggr : Order) : List Order → LoopRes
  | [] => ⟨aggr, [], [], []⟩
  | r :: rs =>
    let s := match_orders aggr r price
    let ids0 : List Nat := if s.order2.is_filled then [s.order2.id] else []
    if s.order1.is_filled then
      ⟨s.order1, s.order2 :: rs, [s.m], ids0⟩
    else
      let rest := fillLoop price s.order1 rs
      ⟨rest.order, s.order2 :: rest.residents, s.m :: rest.trades, ids0 ++ rest.filled⟩

/-- Result of `Limit::fill`: the aggressor after mutation, the limit after
mutation, and the matches produced. -/
structure FillRes where
  order : Order
  limit : Limit
  trades : List OrderMatch
deriving DecidableEq

/-- The removal loop at the end of `Limit::fill`:
`for id in filled_order_ids { self.remove_order(id); }`. -/
def removeIds (l : Limit) (ids : List Nat) : Limit :=
  ids.foldl Limit.remove_op l

/-- Model of `Limit::fill`. -/
def Limit.fill (l : Limit) (aggr : Order) : FillRes :=
  let res := fillLoop l.price aggr l.orders_by_uuid
  let l1 : Limit := { l with orders_by_uuid := res.residents }
  ⟨res.order, removeIds l1 res.filled, res.trades⟩

/-- Model of `OrderBook` (orderbook/mod.rs). `asks` is the ascending-price map,
`bids` the descending-price map (the `Reverse<Decimal>` keys); in both, the
map key always equals the stored `Limit.price`. -/
structure OrderBook where
  asks : List Limit
  bids : List Limit
  ask_total_volume : ℚ
  bid_total_volume : ℚ
  order_index : List (Nat × Side × ℚ)
deriving DecidableEq

/-- Model of `OrderBook::new`. -/
def OrderBook.new : OrderBook :=
  { asks := [], bids := [], ask_total_volume := 0, bid_total_volume := 0, order_index := [] }

/-- Model of `HashMap<Uuid, (Side, Decimal)>::insert` on the global order index. -/
def indexInsert (id : Nat) (v : Side × ℚ) : List (Nat × Side × ℚ) → List (Nat × Side × ℚ)
  | [] => [(id, v)]
  | e :: es => if e.1 = id then (id, v) :: es else e :: indexInsert id v es

/-- Model of `HashMap<Uuid, (Side, Decimal)>::remove` on the global order index. -/
def indexRemove (id : Nat) : List (Nat × Side × ℚ) → Option ((Side × ℚ) × List (Nat × Side × ℚ))
  | [] => none
  | e :: es =>
    if e.1 = id then some (e.2, es)
    else (indexRemove id es).map (fun p => (p.1, e :: p.2))

/-- Lookup in the global order index (`HashMap::get`). -/
def indexLookup (id : Nat) : List (Nat × Side × ℚ) → Option (Side × ℚ)
  | [] => none
  | e :: es => if e.1 = id then some e.2 else indexLookup id es

/-- Model of `BTreeMap::get` on a side's limits, keyed by price. -/
def findLimit (price : ℚ) : List Limit → Option Limit
  | [] => none
  | l :: ls => if l.price = price then some l else findLimit price ls

/-- Model of `OrderBook::ensure_volume`: fail iff the opposing side's aggregate volume
is strictly below the order's size. -/
def OrderBook.ensure_volume (b : OrderBook) (o : Order) : Except OrderBookError Unit :=
  let total_volume : ℚ :=
    match o.side with
    | Side.Bid => b.ask_total_volume
    | Side.Ask => b.bid_total_volume
  if total_volume < o.size then
    Except.error (OrderBookError.NotEnoughVolume o.side o.size total_volume)
  else
    Except.ok ()

/-- The shared body of `cancel_bid_order` / `cancel_ask_order` acting on one
side's limit list: `get_mut` the limit at `price`, `Limit::remove_order`,
and prune the limit if it became empty. -/
def cancelSide (id : Nat) (price : ℚ) : List Limit → Option (Order × List Limit)
  | [] => none
  | l :: ls =>
    if l.price = price then
      match l.remove_order id with
      | none => none
      | some (o, l') => some (o, if l'.is_empty then ls else l' :: ls)
    else
      (cancelSide id price ls).map (fun p => (p.1, l :: p.2))

/-- Model of `OrderBook::cancel_bid_order`. -/
def OrderBook.cancel_bid_order (b : OrderBook) (id : Nat) (price : ℚ) :
    Option (Order × OrderBook) :=
  match cancelSide id price b.bids with
  | none => none
  | some (o, bids') =>
    some (o, { b with bids := bids', bid_total_volume := b.bid_total_volume - o.size })

/-- Model of `OrderBook::cancel_ask_order`. -/
def OrderBook.cancel_ask_order (b : OrderBook) (id : Nat) (price : ℚ) :
    Option (Order × OrderBook) :=
  match cancelSide id price b.asks with
  | none => none
  | some (o, asks') =>
    some (o, { b with asks := asks', ask_total_volume := b.ask_total_volume - o.size })

/-- Result of `OrderBook::cancel_order`: the Rust return value plus the book
after the call (the `&mut self` state, which on the error paths keeps any
mutation already performed — in particular the index-entry removal). -/
structure CancelRes where
  result : Except OrderBookError Order
  book : OrderBook

/-- Model of `OrderBook::cancel_order`: remove the index entry first (missing id is
`OrderNotFound`); then remove from the side; a `None` from the side handler
is mapped to `OrderNotFound` as well. -/
def OrderBook.cancel_order (b : OrderBook) (id : Nat) : CancelRes :=
  match indexRemove id b.order_index with
  | none => ⟨Except.error (OrderBookError.OrderNotFound id), b⟩
  | some (sp, idx) =>
    let b1 : OrderBook := { b with order_index := idx }
    match (match sp.1 with
           | Side.Bid => b1.cancel_bid_order id sp.2
           | Side.Ask => b1.cancel_ask_order id sp.2) with
    | none => ⟨Except.error (OrderBookError.OrderNotFound id), b1⟩
    | some (o, b2) => ⟨Except.ok o, b2⟩

/-- Sum of `size_filled` over a list of matches, as
`matches.iter().map(|m| m.size_filled).sum()`. -/
def sumFilled (ms : List OrderMatch) : ℚ := (ms.map OrderMatch.size_filled).sum

/-- Result of the sweep loop in `place_market_bid_order` /
`place_market_ask_order`. -/
structure SweepRes where
  order : Order
  limits : List Limit
  trades : List OrderMatch
  empties : List ℚ
deriving DecidableEq

/-- The sweep loop of a market order: walk the opposing side's limits in
iteration (best-price-first) order, breaking once the aggressor is filled;
fill at each limit, collect matches, and record the prices of limits that
became empty. -/
def marketSweep (aggr : Order) : List Limit → SweepRes
  | [] => ⟨aggr, [], [], []⟩
  | l :: ls =>
    if aggr.is_filled then ⟨aggr, l :: ls, [], []⟩
    else
      let f := l.fill aggr
      let rest := marketSweep f.order ls
      ⟨rest.order, f.limit :: rest.limits, f.trades ++ rest.trades,
        (if f.limit.is_empty then [l.price] else []) ++ rest.empties⟩

/-- Model of `BTreeMap::remove` by price on a side's limit list. -/
def pruneAt (price : ℚ) : List Limit → List Limit
  | [] => []
  | l :: ls => if l.price = price then ls else l :: pruneAt price ls

/-- The pruning loop after the sweep:
`for price in empty_price_leves { map.remove(&price); }`. -/
def pruneAll (xs : List Limit) (prices : List ℚ) : List Limit :=
  prices.foldl (fun acc p => pruneAt p acc) xs

/-- Result of `OrderBook::place_market_order`: the Rust return value, the
aggressor after mutation (it is passed by `&mut`), and the book after the
call. -/
structure MarketRes where
  result : Except OrderBookError (List OrderMatch)
  order : Order
  book : OrderBook

/-- Model of `OrderBook::place_market_bid_order`: sweep the asks (ascending price),
subtract the filled quantity from `ask_total_volume` (the source subtracts
per limit inside the loop; the accumulated effect is the total), prune
emptied limits after the loop. Never fails. -/
def OrderBook.place_market_bid_order (b : OrderBook) (o : Order) : MarketRes :=
  let s := marketSweep o b.asks
  ⟨Except.ok s.trades, s.order,
    { b with
      asks := pruneAll s.limits s.empties
      ask_total_volume := b.ask_total_volume - sumFilled s.trades }⟩

/-- Model of `OrderBook::place_market_ask_order`: sweep the bids (descending price). -/
def OrderBook.place_market_ask_order (b : OrderBook) (o : Order) : MarketRes :=
  let s := marketSweep o b.bids
  ⟨Except.ok s.trades, s.order,
    { b with
      bids := pruneAll s.limits s.empties
      bid_total_volume := b.bid_total_volume - sumFilled s.trades }⟩

/-- Model of `OrderBook::place_market_order`: volume pre-check, then dispatch on
side. On the error path nothing has been mutated. -/
def OrderBook.place_market_order (b : OrderBook) (o : Order) : MarketRes :=
  match b.ensure_volume o with
  | Except.error e => ⟨Except.error e, o, b⟩
  | Except.ok _ =>
    match o.side with
    | Side.Bid => b.place_market_bid_order o
    | Side.Ask => b.place_market_ask_order o

/-- Model of `BTreeMap::entry(price).or_insert_with(|| Limit::new(price)).add_order(o)`
on the ascending ask map. -/
def addToAsks (price : ℚ) (o : Order) : List Limit → List Limit
  | [] => [(Limit.new price).add_order o]
  | l :: ls =>
    if l.price = price then l.add_order o :: ls
    else if price < l.price then (Limit.new price).add_order o :: l :: ls
    else l :: addToAsks price o ls

/-- The same on the descending bid map (`Reverse<Decimal>` keys). -/
def addToBids (price : ℚ) (o : Order) : List Limit → List Limit
  | [] => [(Limit.new price).add_order o]
  | l :: ls =>
    if l.price = price then l.add_order o :: ls
    else if l.price < price then (Limit.new price).add_order o :: l :: ls
    else l :: addToBids price o ls

/-- Model of `OrderBook::place_limit_order`: record the index entry, add the size to
the side's aggregate volume, and insert into the side's limit at `price`
(created if absent). No failure modes. -/
def OrderBook.place_limit_order (b : OrderBook) (price : ℚ) (o : Order) : OrderBook :=
  let idx := indexInsert o.id (o.side, price) b.order_index
  match o.side with
  | Side.Ask =>
    { b with
      order_index := idx
      ask_total_volume := b.ask_total_volume + o.size
      asks := addToAsks price o b.asks }
  | Side.Bid =>
    { b with
      order_index := idx
      bid_total_volume := b.bid_total_volume + o.size
      bids := addToBids price o b.bids }

/-! ### Derived observations used by the statements -/

/-- Sum of the current sizes of a list of orders. -/
def ordersSum (os : List Order) : ℚ := (os.map Order.size).sum

/-- Ids of the orders resident in a limit. -/
def limitIds (l : Limit) : List Nat := l.orders_by_uuid.map Order.id

/-- Sum of the resident order sizes over one side of the book. -/
def sideSum (xs : List Limit) : ℚ := (xs.map (fun l => ordersSum l.orders_by_uuid)).sum

/-- Ids of the orders resident on one side of the book. -/
def sideIds (xs : List Limit) : List Nat := xs.flatMap limitIds

/-- Ids of all orders resident anywhere in the book. -/
def bookIds (b : OrderBook) : List Nat := sideIds b.asks ++ sideIds b.bids

/-- Ids present in the global order index. -/
def indexIds (b : OrderBook) : List Nat := b.order_index.map Prod.fst

/-- Removal of one occurrence of a (timestamp, id) key from a key list;
used to relate the two indices of a `Limit`. -/
def eraseKey (k : Int × Nat) : List (Int × Nat) → List (Int × Nat)
  | [] => []
  | x :: xs => if x = k then xs else x :: eraseKey k xs

/-- The volume `ensure_volume` checks: the side opposite the order. -/
def oppVolume (b : OrderBook) (o : Order) : ℚ :=
  match o.side with
  | Side.Bid => b.ask_total_volume
  | Side.Ask => b.bid_total_volume

/-- One side's limit list, selected the way `cancel_order` dispatches. -/
def OrderBook.sideLimits (b : OrderBook) : Side → List Limit
  | Side.Bid => b.bids
  | Side.Ask => b.asks

/-- One side's aggregate volume counter. -/
def OrderBook.sideVol (b : OrderBook) : Side → ℚ
  | Side.Bid => b.bid_total_volume
  | Side.Ask => b.ask_total_volume

/-- The books reachable from `OrderBook::new` through the public operations.
The side conditions mirror the environment of the Rust code: order sizes are
non-negative exact decimals, and `Order::new` assigns a fresh `Uuid`, so an
order placed into the book never collides with a resident id. -/
inductive Reachable : OrderBook → Prop where
  | new : Reachable OrderBook.new
  | placeLimit {b : OrderBook} (price : ℚ) (o : Order) :
      Reachable b → 0 ≤ o.size → o.id ∉ bookIds b →
      Reachable (b.place_limit_order price o)
  | cancel {b : OrderBook} (id : Nat) :
      Reachable b → Reachable (b.cancel_order id).book
  | market {b : OrderBook} (o : Order) :
      Reachable b → 0 ≤ o.size → Reachable (b.place_market_order o).book

/-- The limits reachable through `Limit`'s public operations. The freshness
hypothesis on `add_order` is the documented caller guarantee that the order
is not already present. -/
inductive LimitReachable : Limit → Prop where
  | new (price : ℚ) : LimitReachable (Limit.new price)
  | add {l : Limit} (o : Order) :
      LimitReachable l → o.id ∉ limitIds l → LimitReachable (l.add_order o)
  | remove {l : Limit} (id : Nat) :
      LimitReachable l → LimitReachable (l.remove_op id)
  | fillStep {l : Limit} (a : Order) :
      LimitReachable l → LimitReachable (l.fill a).limit

/-- Well-formedness of one limit on side `sd`: residents carry that side and
non-negative sizes, and resident ids are distinct. -/
def LimitWF (sd : Side) (l : Limit) : Prop :=
  (∀ o ∈ l.orders_by_uuid, o.side = sd ∧ 0 ≤ o.size) ∧ (limitIds l).Nodup

/-- Well-formedness of one side of the book: every limit is well-formed and
the prices (the `BTreeMap` keys) are sorted by the side's key ordering and
distinct. -/
def SideWF (sd : Side) (r : ℚ → ℚ → Prop) (xs : List Limit) : Prop :=
  (∀ l ∈ xs, LimitWF sd l) ∧ (xs.map Limit.price).Sorted r ∧ (xs.map Limit.price).Nodup

/-- The book-level volume invariant: each side's aggregate volume counter
equals the sum of the current sizes of that side's resident orders, over
well-formed sides. -/
def Inv (b : OrderBook) : Prop :=
  SideWF Side.Ask (fun a b => a < b) b.asks ∧
  SideWF Side.Bid (fun a b => b < a) b.bids ∧
  b.ask_total_volume = sideSum b.asks ∧ b.bid_total_volume = sideSum b.bids

/-! ### Elementary facts about the embedded operations -/

theorem is_filled_iff (o : Order) : o.is_filled = true ↔ o.size = 0 := by
  simp [Order.is_filled]

theorem is_empty_iff (l : Limit) : l.is_empty = true ↔ l.orders_by_uuid = [] := by
  simp [Limit.is_empty]

theorem sumFilled_nil : sumFilled [] = 0 := rfl

theorem sumFilled_cons (m : OrderMatch) (ms : List OrderMatch) :
    sumFilled (m :: ms) = m.size_filled + sumFilled ms := by
  simp [sumFilled]

theorem sumFilled_append (ms₁ ms₂ : List OrderMatch) :
    sumFilled (ms₁ ++ ms₂) = sumFilled ms₁ + sumFilled ms₂ := by
  simp [sumFilled]

theorem ordersSum_nil : ordersSum [] = 0 := rfl

theorem ordersSum_cons (o : Order) (os : List Order) :
    ordersSum (o :: os) = o.size + ordersSum os := by
  simp [ordersSum]

theorem ordersSum_append (os₁ os₂ : List Order) :
    ordersSum (os₁ ++ os₂) = ordersSum os₁ + ordersSum os₂ := by
  simp [ordersSum]

theorem sideSum_nil : sideSum [] = 0 := rfl

theorem sideSum_cons (l : Limit) (ls : List Limit) :
    sideSum (l :: ls) = ordersSum l.orders_by_uuid + sideSum ls := by
  simp [sideSum]

theorem sideSum_append (xs ys : List Limit) :
    sideSum (xs ++ ys) = sideSum xs + sideSum ys := by
  simp [sideSum]

/-- If the ids of a list of orders are distinct, an id determines the order. -/
theorem nodup_id_unique {os : List Order} (h : (os.map Order.id).Nodup)
    {a b : Order} (ha : a ∈ os) (hb : b ∈ os) (hab : a.id = b.id) : a = b := by
  induction os with
  | nil => cases ha
  | cons x xs ih =>
    rw [List.map_cons, List.nodup_cons] at h
    rcases List.mem_cons.mp ha with rfl | ha' <;>
      rcases List.mem_cons.mp hb with rfl | hb'
    · rfl
    · exact absurd (hab ▸ List.mem_map_of_mem Order.id hb') h.1
    · exact absurd (hab ▸ List.mem_map_of_mem Order.id ha') h.1
    · exact ih h.2 ha' hb'

/-! ### `match_orders` -/

theorem match_orders_price (o1 o2 : Order) (price : ℚ) :
    (match_orders o1 o2 price).m.price = price := by
  obtain ⟨i1, z1, s1, t1⟩ := o1
  obtain ⟨i2, z2, s2, t2⟩ := o2
  cases s1 <;> cases s2 <;> simp [match_orders] <;> split <;> simp

theorem match_orders_sizes (o1 o2 : Order) (price : ℚ) :
    (match_orders o1 o2 price).order1.size
        = o1.size - (match_orders o1 o2 price).m.size_filled ∧
    (match_orders o1 o2 price).order2.size
        = o2.size - (match_orders o1 o2 price).m.size_filled := by
  obtain ⟨i1, z1, s1, t1⟩ := o1
  obtain ⟨i2, z2, s2, t2⟩ := o2
  cases s1 <;> cases s2 <;> simp [match_orders] <;> split <;> simp

theorem match_orders_order1_keys (o1 o2 : Order) (price : ℚ) :
    (match_orders o1 o2 price).order1.id = o1.id ∧
    (match_orders o1 o2 price).order1.side = o1.side ∧
    (match_orders o1 o2 price).order1.timestamp = o1.timestamp := by
  obtain ⟨i1, z1, s1, t1⟩ := o1
  obtain ⟨i2, z2, s2, t2⟩ := o2
  cases s1 <;> cases s2 <;> simp [match_orders] <;> split <;> simp

theorem match_orders_order2_keys (o1 o2 : Order) (price : ℚ) :
    (match_orders o1 o2 price).order2.id = o2.id ∧
    (match_orders o1 o2 price).order2.side = o2.side ∧
    (match_orders o1 o2 price).order2.timestamp = o2.timestamp := by
  obtain ⟨i1, z1, s1, t1⟩ := o1
  obtain ⟨i2, z2, s2, t2⟩ := o2
  cases s1 <;> cases s2 <;> simp [match_orders] <;> split <;> simp

theorem match_orders_nonneg (o1 o2 : Order) (price : ℚ)
    (h1 : 0 ≤ o1.size) (h2 : 0 ≤ o2.size) :
    0 ≤ (match_orders o1 o2 price).order1.size ∧
    0 ≤ (match_orders o1 o2 price).order2.size := by
  obtain ⟨i1, z1, s1, t1⟩ := o1
  obtain ⟨i2, z2, s2, t2⟩ := o2
  simp only at h1 h2
  cases s1 <;> cases s2 <;> simp [match_orders] <;> try constructor
  all_goals try split
  all_goals simp_all
  all_goals linarith

/-- With opposite sides, one `match_orders` leg transfers exactly
`min` of the two sizes. -/
theorem match_orders_filled_min (o1 o2 : Order) (price : ℚ)
    (h : o2.side = o1.side.opposite) :
    (match_orders o1 o2 price).m.size_filled = min o1.size o2.size := by
  obtain ⟨i1, z1, s1, t1⟩ := o1
  obtain ⟨i2, z2, s2, t2⟩ := o2
  simp only at h
  cases s1 <;> simp [Side.opposite] at h <;> subst h <;>
    simp [match_orders] <;> split <;> rename_i hle
  · exact (min_eq_left hle).symm
  · exact (min_eq_right (le_of_not_le hle)).symm
  · exact (min_eq_right hle).symm
  · exact (min_eq_left (le_of_not_le hle)).symm

theorem match_orders_filled_pos (o1 o2 : Order) (price : ℚ)
    (h : o2.side = o1.side.opposite) (h1 : 0 < o1.size) (h2 : 0 < o2.size) :
    0 < (match_orders o1 o2 price).m.size_filled := by
  rw [match_orders_filled_min o1 o2 price h]
  exact lt_min h1 h2

theorem ordersSum_nonneg {rs : List Order} (h : ∀ r ∈ rs, 0 ≤ r.size) :
    0 ≤ ordersSum rs := by
  induction rs with
  | nil => simp [ordersSum]
  | cons r rs ih =>
    rw [ordersSum_cons]
    have := h r (List.mem_cons_self r rs)
    have := ih (fun x hx => h x (List.mem_cons_of_mem r hx))
    linarith

/-! ### The loop inside `Limit::fill` -/

theorem fillLoop_order_size (price : ℚ) :
    ∀ (rs : List Order) (aggr : Order),
      (fillLoop price aggr rs).order.size
        = aggr.size - sumFilled (fillLoop price aggr rs).trades := by
  intro rs
  induction rs with
  | nil => intro aggr; simp [fillLoop, sumFilled]
  | cons r rs ih =>
    intro aggr
    have hm := (match_orders_sizes aggr r price).1
    simp only [fillLoop]
    split
    · simp [sumFilled_cons, sumFilled_nil, hm]
    · simp only [sumFilled_cons]
      rw [ih, hm]
      ring

theorem fillLoop_residents_sum (price : ℚ) :
    ∀ (rs : List Order) (aggr : Order),
      ordersSum (fillLoop price aggr rs).residents
        = ordersSum rs - sumFilled (fillLoop price aggr rs).trades := by
  intro rs
  induction rs with
  | nil => intro aggr; simp [fillLoop, sumFilled, ordersSum]
  | cons r rs ih =>
    intro aggr
    have hm := (match_orders_sizes aggr r price).2
    simp only [fillLoop]
    split
    · simp only [ordersSum_cons, sumFilled_cons, sumFilled_nil, hm]
      ring
    · simp only [ordersSum_cons, sumFilled_cons]
      rw [ih, hm]
      ring

theorem fillLoop_order_keys (price : ℚ) :
    ∀ (rs : List Order) (aggr : Order),
      (fillLoop price aggr rs).order.id = aggr.id ∧
      (fillLoop price aggr rs).order.side = aggr.side ∧
      (fillLoop price aggr rs).order.timestamp = aggr.timestamp := by
  intro rs
  induction rs with
  | nil => intro aggr; simp [fillLoop]
  | cons r rs ih =>
    intro aggr
    have hm := match_orders_order1_keys aggr r price
    simp only [fillLoop]
    split
    · exact hm
    · obtain ⟨h1, h2, h3⟩ := ih (match_orders aggr r price).order1
      exact ⟨h1.trans hm.1, h2.trans hm.2.1, h3.trans hm.2.2⟩

theorem fillLoop_trades_price (price : ℚ) :
    ∀ (rs : List Order) (aggr : Order),
      ∀ m ∈ (fillLoop price aggr rs).trades, m.price = price := by
  intro rs
  induction rs with
  | nil => intro aggr m hm; simp [fillLoop] at hm
  | cons r rs ih =>
    intro aggr m hm
    simp only [fillLoop] at hm
    split at hm
    · simp only [List.mem_singleton] at hm
      exact hm ▸ match_orders_price aggr r price
    · simp only [List.mem_cons] at hm
      rcases hm with rfl | hm
      · exact match_orders_price aggr r price
      · exact ih _ m hm

theorem fillLoop_residents_maps (price : ℚ) :
    ∀ (rs : List Order) (aggr : Order),
      (fillLoop price aggr rs).residents.map Order.id = rs.map Order.id ∧
      (fillLoop price aggr rs).residents.map Order.side = rs.map Order.side ∧
      (fillLoop price aggr rs).residents.map tsKey = rs.map tsKey := by
  intro rs
  induction rs with
  | nil => intro aggr; simp [fillLoop]
  | cons r rs ih =>
    intro aggr
    have hm := match_orders_order2_keys aggr r price
    have hkey : tsKey (match_orders aggr r price).order2 = tsKey r := by
      simp [tsKey, hm.1, hm.2.2]
    simp only [fillLoop]
    split
    · simp [hm.1, hm.2.1, hkey]
    · obtain ⟨h1, h2, h3⟩ := ih (match_orders aggr r price).order1
      simp [hm.1, hm.2.1, hkey, h1, h2, h3]

theorem fillLoop_filled_zero (price : ℚ) :
    ∀ (rs : List Order) (aggr : Order),
      ∀ id ∈ (fillLoop price aggr rs).filled,
        ∃ r' ∈ (fillLoop price aggr rs).residents, r'.id = id ∧ r'.size = 0 := by
  intro rs
  induction rs with
  | nil => intro aggr id hid; simp [fillLoop] at hid
  | cons r rs ih =>
    intro aggr id hid
    simp only [fillLoop] at hid ⊢
    split at hid <;> rename_i hbreak
    · rw [if_pos hbreak]
      simp only [List.mem_cons]
      simp only at hid
      split at hid <;> rename_i hf2
      · simp only [List.mem_singleton] at hid
        exact ⟨(match_orders aggr r price).order2, Or.inl rfl,
          hid ▸ rfl, (is_filled_iff _).mp hf2⟩
      · simp at hid
    · rw [if_neg hbreak]
      simp only [List.mem_cons]
      simp only [List.mem_append] at hid
      rcases hid with hid | hid
      · split at hid <;> rename_i hf2
        · simp only [List.mem_singleton] at hid
          exact ⟨(match_orders aggr r price).order2, Or.inl rfl,
            hid ▸ rfl, (is_filled_iff _).mp hf2⟩
        · simp at hid
      · obtain ⟨r', hr', h1, h2⟩ := ih (match_orders aggr r price).order1 id hid
        exact ⟨r', Or.inr hr', h1, h2⟩

theorem fillLoop_nonneg (price : ℚ) :
    ∀ (rs : List Order) (aggr : Order), 0 ≤ aggr.size → (∀ r ∈ rs, 0 ≤ r.size) →
      0 ≤ (fillLoop price aggr rs).order.size ∧
      ∀ r' ∈ (fillLoop price aggr rs).residents, 0 ≤ r'.size := by
  intro rs
  induction rs with
  | nil => intro aggr ha _; exact ⟨ha, by simp [fillLoop]⟩
  | cons r rs ih =>
    intro aggr ha hr
    have hm := match_orders_nonneg aggr r price ha (hr r (List.mem_cons_self r rs))
    simp only [fillLoop]
    split
    · refine ⟨hm.1, ?_⟩
      intro r' hr'
      rcases List.mem_cons.mp hr' with rfl | hr'
      · exact hm.2
      · exact hr r' (List.mem_cons_of_mem r hr')
    · obtain ⟨h1, h2⟩ :=
        ih (match_orders aggr r price).order1 hm.1
          (fun x hx => hr x (List.mem_cons_of_mem r hx))
      refine ⟨h1, ?_⟩
      intro r' hr'
      rcases List.mem_cons.mp hr' with rfl | hr'
      · exact hm.2
      · exact h2 r' hr'

/-- With opposite-side residents, the loop consumes exactly
`min(aggressor size, total resident size)`. -/
theorem fillLoop_consume (price : ℚ) :
    ∀ (rs : List Order) (aggr : Order), 0 ≤ aggr.size →
      (∀ r ∈ rs, 0 ≤ r.size ∧ r.side = aggr.side.opposite) →
      (fillLoop price aggr rs).order.size
        = aggr.size - min aggr.size (ordersSum rs) := by
  intro rs
  induction rs with
  | nil =>
    intro aggr ha _
    simp [fillLoop, ordersSum, min_eq_right ha]
  | cons r rs ih =>
    intro aggr ha hr
    have hrhead := hr r (List.mem_cons_self r rs)
    have hrtail : ∀ x ∈ rs, 0 ≤ x.size ∧ x.side = aggr.side.opposite :=
      fun x hx => hr x (List.mem_cons_of_mem r hx)
    have hmin := match_orders_filled_min aggr r price hrhead.2
    have hsz := (match_orders_sizes aggr r price).1
    have hnn := match_orders_nonneg aggr r price ha hrhead.1
    have hsum : 0 ≤ ordersSum rs := ordersSum_nonneg (fun x hx => (hrtail x hx).1)
    simp only [fillLoop]
    split
    · rename_i hfo
      rw [is_filled_iff] at hfo
      have haggr_le : aggr.size ≤ r.size := by
        by_contra hc
        push_neg at hc
        rw [hsz, hmin, min_eq_right (le_of_lt hc)] at hfo
        have := hrhead.1
        linarith
      have : min aggr.size (ordersSum (r :: rs)) = aggr.size := by
        rw [ordersSum_cons]
        exact min_eq_left (by linarith)
      rw [this]
      rw [hsz, hmin, min_eq_left haggr_le]
    · rename_i hfo
      rw [is_filled_iff] at hfo
      have hr_le : r.size ≤ aggr.size := by
        by_contra hc
        push_neg at hc
        rw [hsz, hmin, min_eq_left (le_of_lt hc)] at hfo
        simp at hfo
      have hside : ∀ x ∈ rs, 0 ≤ x.size ∧
          x.side = (match_orders aggr r price).order1.side.opposite := by
        intro x hx
        rw [(match_orders_order1_keys aggr r price).2.1]
        exact hrtail x hx
      rw [ih (match_orders aggr r price).order1 hnn.1 hside]
      rw [hsz, hmin, min_eq_right hr_le]
      rw [ordersSum_cons]
      rcases le_total (aggr.size - r.size) (ordersSum rs) with hc | hc
      · rw [min_eq_left hc, min_eq_left (by linarith)]
        ring
      · rw [min_eq_right hc, min_eq_right (by linarith)]
        ring

theorem fillLoop_trades_pos (price : ℚ) :
    ∀ (rs : List Order) (aggr : Order), 0 < aggr.size →
      (∀ r ∈ rs, 0 < r.size ∧ r.side = aggr.side.opposite) →
      ∀ m ∈ (fillLoop price aggr rs).trades, 0 < m.size_filled := by
  intro rs
  induction rs with
  | nil => intro aggr _ _ m hm; simp [fillLoop] at hm
  | cons r rs ih =>
    intro aggr ha hr m hm
    have hrhead := hr r (List.mem_cons_self r rs)
    have hpos := match_orders_filled_pos aggr r price hrhead.2 ha hrhead.1
    simp only [fillLoop] at hm
    split at hm
    · simp only [List.mem_singleton] at hm
      exact hm ▸ hpos
    · rename_i hfo
      rw [is_filled_iff] at hfo
      simp only [List.mem_cons] at hm
      rcases hm with rfl | hm
      · exact hpos
      · have hnn := match_orders_nonneg aggr r price (le_of_lt ha) (le_of_lt hrhead.1)
        have hpos1 : 0 < (match_orders aggr r price).order1.size :=
          lt_of_le_of_ne hnn.1 (Ne.symm hfo)
        have hside : ∀ x ∈ rs, 0 < x.size ∧
            x.side = (match_orders aggr r price).order1.side.opposite := by
          intro x hx
          rw [(match_orders_order1_keys aggr r price).2.1]
          exact hr x (List.mem_cons_of_mem r hx)
        exact ih (match_orders aggr r price).order1 hpos1 hside m hm

/-! ### `removeByUuid`, `Limit::remove_order`, and the removal loop of `fill` -/

theorem removeByUuid_eq_none (id : Nat) :
    ∀ (os : List Order), removeByUuid id os = none ↔ ∀ x ∈ os, x.id ≠ id := by
  intro os
  induction os with
  | nil => simp [removeByUuid]
  | cons x xs ih =>
    by_cases hx : x.id = id
    · simp [removeByUuid, hx]
    · simp [removeByUuid, hx, Option.map_eq_none', ih]

theorem removeByUuid_eq_some (id : Nat) :
    ∀ (os : List Order) (o : Order) (rest : List Order),
      removeByUuid id os = some (o, rest) →
      ∃ pre post, os = pre ++ o :: post ∧ rest = pre ++ post ∧ o.id = id ∧
        ∀ x ∈ pre, x.id ≠ id := by
  intro os
  induction os with
  | nil => intro o rest h; simp [removeByUuid] at h
  | cons x xs ih =>
    intro o rest h
    by_cases hx : x.id = id
    · rw [removeByUuid, if_pos hx] at h
      simp only [Option.some.injEq, Prod.mk.injEq] at h
      obtain ⟨rfl, rfl⟩ := h
      exact ⟨[], xs, rfl, rfl, hx, by simp⟩
    · rw [removeByUuid, if_neg hx] at h
      obtain ⟨p, hp, heq⟩ := Option.map_eq_some'.mp h
      obtain ⟨o₀, rest₀⟩ := p
      simp only [Prod.mk.injEq] at heq
      obtain ⟨rfl, rfl⟩ := heq
      obtain ⟨pre, post, h1, h2, h3, h4⟩ := ih o₀ rest₀ hp
      refine ⟨x :: pre, post, by rw [List.cons_append, h1], by rw [List.cons_append, h2],
        h3, ?_⟩
      intro y hy
      rcases List.mem_cons.mp hy with rfl | hy
      · exact hx
      · exact h4 y hy

theorem remove_order_none_iff (l : Limit) (id : Nat) :
    l.remove_order id = none ↔ ∀ x ∈ l.orders_by_uuid, x.id ≠ id := by
  rw [← removeByUuid_eq_none id l.orders_by_uuid]
  unfold Limit.remove_order
  cases h : removeByUuid id l.orders_by_uuid with
  | none => simp
  | some p => cases p; simp

theorem remove_order_some (l : Limit) (id : Nat) (o : Order) (l' : Limit)
    (h : l.remove_order id = some (o, l')) :
    o.id = id ∧ o ∈ l.orders_by_uuid ∧
    ordersSum l'.orders_by_uuid = ordersSum l.orders_by_uuid - o.size ∧
    l'.orders_by_uuid.Sublist l.orders_by_uuid ∧
    l'.price = l.price ∧
    l'.total_volume = l.total_volume - o.size := by
  unfold Limit.remove_order at h
  cases hr : removeByUuid id l.orders_by_uuid with
  | none => rw [hr] at h; simp at h
  | some p =>
    obtain ⟨o₀, rest⟩ := p
    rw [hr] at h
    simp only [Option.some.injEq, Prod.mk.injEq] at h
    obtain ⟨rfl, rfl⟩ := h
    obtain ⟨pre, post, h1, h2, h3, _⟩ := removeByUuid_eq_some id _ _ _ hr
    refine ⟨h3, ?_, ?_, ?_, rfl, rfl⟩
    · rw [h1]
      exact List.mem_append_right pre (List.mem_cons_self _ _)
    · show ordersSum rest = ordersSum l.orders_by_uuid - o₀.size
      rw [h1, h2, ordersSum_append, ordersSum_append, ordersSum_cons]
      ring
    · show rest.Sublist l.orders_by_uuid
      rw [h1, h2]
      exact (List.sublist_cons_self o₀ post).append_left pre

theorem remove_op_sublist (l : Limit) (id : Nat) :
    (l.remove_op id).orders_by_uuid.Sublist l.orders_by_uuid ∧
    (l.remove_op id).price = l.price := by
  unfold Limit.remove_op
  cases h : l.remove_order id with
  | none => exact ⟨List.Sublist.refl _, rfl⟩
  | some p =>
    obtain ⟨o, l'⟩ := p
    have hs := remove_order_some l id o l' h
    exact ⟨hs.2.2.2.1, hs.2.2.2.2.1⟩

theorem removeIds_cons (l : Limit) (id : Nat) (ids : List Nat) :
    removeIds l (id :: ids) = removeIds (l.remove_op id) ids := rfl

theorem removeIds_sublist (ids : List Nat) : ∀ (l : Limit),
    (removeIds l ids).orders_by_uuid.Sublist l.orders_by_uuid ∧
    (removeIds l ids).price = l.price := by
  induction ids with
  | nil => intro l; exact ⟨List.Sublist.refl _, rfl⟩
  | cons id ids ih =>
    intro l
    rw [removeIds_cons]
    obtain ⟨hsub, hpr⟩ := ih (l.remove_op id)
    obtain ⟨hsub', hpr'⟩ := remove_op_sublist l id
    exact ⟨hsub.trans hsub', hpr.trans hpr'⟩

theorem remove_op_sum (l : Limit) (id : Nat)
    (hz : ∀ o ∈ l.orders_by_uuid, o.id = id → o.size = 0) :
    ordersSum (l.remove_op id).orders_by_uuid = ordersSum l.orders_by_uuid := by
  unfold Limit.remove_op
  cases h : l.remove_order id with
  | none => rfl
  | some p =>
    obtain ⟨o, l'⟩ := p
    have hs := remove_order_some l id o l' h
    have : o.size = 0 := hz o hs.2.1 hs.1
    rw [hs.2.2.1, this]
    ring

theorem removeIds_sum (ids : List Nat) : ∀ (l : Limit),
    (∀ id ∈ ids, ∀ o ∈ l.orders_by_uuid, o.id = id → o.size = 0) →
    ordersSum (removeIds l ids).orders_by_uuid = ordersSum l.orders_by_uuid := by
  induction ids with
  | nil => intro l _; rfl
  | cons id ids ih =>
    intro l hz
    rw [removeIds_cons]
    have hstep := remove_op_sum l id (hz id (List.mem_cons_self _ _))
    have htail : ∀ i ∈ ids, ∀ o ∈ (l.remove_op id).orders_by_uuid, o.id = i → o.size = 0 := by
      intro i hi o ho
      exact hz i (List.mem_cons_of_mem _ hi) o ((remove_op_sublist l id).1.subset ho)
    rw [ih (l.remove_op id) htail, hstep]

/-! ### `Limit::fill` -/

theorem fill_order_def (l : Limit) (aggr : Order) :
    (l.fill aggr).order = (fillLoop l.price aggr l.orders_by_uuid).order := rfl

theorem fill_trades_def (l : Limit) (aggr : Order) :
    (l.fill aggr).trades = (fillLoop l.price aggr l.orders_by_uuid).trades := rfl

theorem fill_limit_def (l : Limit) (aggr : Order) :
    (l.fill aggr).limit =
      removeIds { l with orders_by_uuid := (fillLoop l.price aggr l.orders_by_uuid).residents }
        (fillLoop l.price aggr l.orders_by_uuid).filled := rfl

theorem fill_price (l : Limit) (aggr : Order) : (l.fill aggr).limit.price = l.price := by
  rw [fill_limit_def]
  exact (removeIds_sublist _ _).2

theorem fill_order_size (l : Limit) (aggr : Order) :
    (l.fill aggr).order.size = aggr.size - sumFilled (l.fill aggr).trades := by
  rw [fill_order_def, fill_trades_def]
  exact fillLoop_order_size l.price l.orders_by_uuid aggr

theorem fill_order_keys (l : Limit) (aggr : Order) :
    (l.fill aggr).order.id = aggr.id ∧ (l.fill aggr).order.side = aggr.side ∧
    (l.fill aggr).order.timestamp = aggr.timestamp := by
  rw [fill_order_def]
  exact fillLoop_order_keys l.price l.orders_by_uuid aggr

theorem fill_sum (l : Limit) (aggr : Order) (hnd : (limitIds l).Nodup) :
    ordersSum (l.fill aggr).limit.orders_by_uuid
      = ordersSum l.orders_by_uuid - sumFilled (l.fill aggr).trades := by
  rw [fill_limit_def, fill_trades_def]
  have hmaps := fillLoop_residents_maps l.price l.orders_by_uuid aggr
  have hnd' : ((fillLoop l.price aggr l.orders_by_uuid).residents.map Order.id).Nodup := by
    rw [hmaps.1]; exact hnd
  have hz : ∀ id ∈ (fillLoop l.price aggr l.orders_by_uuid).filled,
      ∀ o ∈ (fillLoop l.price aggr l.orders_by_uuid).residents, o.id = id → o.size = 0 := by
    intro id hid o ho hoid
    obtain ⟨r', hr', hid', hz'⟩ := fillLoop_filled_zero l.price l.orders_by_uuid aggr id hid
    have : o = r' := nodup_id_unique hnd' ho hr' (by rw [hoid, hid'])
    rw [this]; exact hz'
  rw [removeIds_sum _ _ hz]
  exact fillLoop_residents_sum l.price l.orders_by_uuid aggr

theorem fill_nodup (l : Limit) (aggr : Order) (hnd : (limitIds l).Nodup) :
    (limitIds (l.fill aggr).limit).Nodup := by
  rw [fill_limit_def]
  have hmaps := fillLoop_residents_maps l.price l.orders_by_uuid aggr
  have hsub := (removeIds_sublist (fillLoop l.price aggr l.orders_by_uuid).filled
    { l with orders_by_uuid := (fillLoop l.price aggr l.orders_by_uuid).residents }).1
  have : (limitIds (removeIds { l with
      orders_by_uuid := (fillLoop l.price aggr l.orders_by_uuid).residents }
      (fillLoop l.price aggr l.orders_by_uuid).filled)).Sublist (limitIds l) := by
    unfold limitIds
    have h1 := hsub.map Order.id
    rw [hmaps.1] at h1
    exact h1
  exact hnd.sublist this

theorem fill_side_nonneg (l : Limit) (aggr : Order) (sd : Side)
    (hside : ∀ o ∈ l.orders_by_uuid, o.side = sd)
    (hnn : ∀ o ∈ l.orders_by_uuid, 0 ≤ o.size) (ha : 0 ≤ aggr.size) :
    ∀ o ∈ (l.fill aggr).limit.orders_by_uuid, o.side = sd ∧ 0 ≤ o.size := by
  rw [fill_limit_def]
  have hmaps := fillLoop_residents_maps l.price l.orders_by_uuid aggr
  have hres_side : ∀ o ∈ (fillLoop l.price aggr l.orders_by_uuid).residents, o.side = sd := by
    intro o ho
    have hmem : o.side ∈ (fillLoop l.price aggr l.orders_by_uuid).residents.map Order.side :=
      List.mem_map_of_mem Order.side ho
    rw [hmaps.2.1] at hmem
    obtain ⟨x, hx, hxo⟩ := List.mem_map.mp hmem
    rw [← hxo]
    exact hside x hx
  have hres_nn := (fillLoop_nonneg l.price l.orders_by_uuid aggr ha hnn).2
  intro o ho
  have ho' : o ∈ (fillLoop l.price aggr l.orders_by_uuid).residents :=
    (removeIds_sublist _ _).1.subset ho
  exact ⟨hres_side o ho', hres_nn o ho'⟩

theorem fill_consume (l : Limit) (aggr : Order) (ha : 0 ≤ aggr.size)
    (h : ∀ o ∈ l.orders_by_uuid, 0 ≤ o.size ∧ o.side = aggr.side.opposite) :
    (l.fill aggr).order.size = aggr.size - min aggr.size (ordersSum l.orders_by_uuid) := by
  rw [fill_order_def]
  exact fillLoop_consume l.price l.orders_by_uuid aggr ha h

theorem fill_empty_orders (l : Limit) (aggr : Order)
    (h : (l.fill aggr).limit.is_empty = true) :
    (l.fill aggr).limit.orders_by_uuid = [] := (is_empty_iff _).mp h

/-! ### Claim C8 -/

/-- C8: every `Match` produced by `Limit::fill` has `price` equal to the
resting (maker) Limit's price — `fill` passes `self.price` into
`match_orders`, which stamps it on every match record. -/
theorem fill_match_price_eq_limit_price (l : Limit) (aggr : Order) :
    ∀ m ∈ (l.fill aggr).trades, m.price = l.price := by
  rw [fill_trades_def]
  intro m hm
  exact fillLoop_trades_price l.price l.orders_by_uuid aggr m hm

theorem fill_match_price_eq_limit_price_witness :
    (⟨⟨1, 2, Side.Ask, 0⟩, ⟨2, 0, Side.Bid, 1⟩, 3, 100⟩ : OrderMatch) ∈
        (((Limit.new 100).add_order ⟨1, 5, Side.Ask, 0⟩).fill ⟨2, 3, Side.Bid, 1⟩).trades ∧
    (⟨⟨1, 2, Side.Ask, 0⟩, ⟨2, 0, Side.Bid, 1⟩, 3, 100⟩ : OrderMatch).price
        = ((Limit.new 100).add_order ⟨1, 5, Side.Ask, 0⟩).price :=
  ⟨by norm_num [OrderBook.new, OrderBook.place_limit_order, OrderBook.place_market_order,
    OrderBook.place_market_bid_order, OrderBook.place_market_ask_order,
    OrderBook.ensure_volume, marketSweep, pruneAt, pruneAll, sumFilled,
    Limit.fill, fillLoop, removeIds, Limit.remove_op, Limit.remove_order,
    removeByUuid, removeByTimestamp, match_orders, Limit.new, Limit.add_order,
    insertByUuid, insertByTimestamp, Limit.is_empty, Order.is_filled,
    indexInsert, indexRemove, indexLookup, findLimit, addToAsks, addToBids,
    ordersSum, List.foldl],
    fill_match_price_eq_limit_price ((Limit.new 100).add_order ⟨1, 5, Side.Ask, 0⟩)
      ⟨2, 3, Side.Bid, 1⟩ ⟨⟨1, 2, Side.Ask, 0⟩, ⟨2, 0, Side.Bid, 1⟩, 3, 100⟩
      (by norm_num [OrderBook.new, OrderBook.place_limit_order, OrderBook.place_market_order,
    OrderBook.place_market_bid_order, OrderBook.place_market_ask_order,
    OrderBook.ensure_volume, marketSweep, pruneAt, pruneAll, sumFilled,
    Limit.fill, fillLoop, removeIds, Limit.remove_op, Limit.remove_order,
    removeByUuid, removeByTimestamp, match_orders, Limit.new, Limit.add_order,
    insertByUuid, insertByTimestamp, Limit.is_empty, Order.is_filled,
    indexInsert, indexRemove, indexLookup, findLimit, addToAsks, addToBids,
    ordersSum, List.foldl])⟩

/-! ### Claim C9 -/

/-- C9 counterexample: the claim asserts `size_filled > 0` for every match
even in books into which a zero-size order has been placed via
`place_limit_order`. Placing an ask of size 0 and an ask of size 5 at price
100 and then submitting a market bid of size 3 passes the volume pre-check
(5 ≥ 3) and produces a first match with `size_filled = 0` against the
zero-size resident. -/
theorem market_order_zero_size_match :
    (((OrderBook.new.place_limit_order 100 ⟨1, 0, Side.Ask, 0⟩).place_limit_order 100
        ⟨2, 5, Side.Ask, 1⟩).place_market_order ⟨3, 3, Side.Bid, 2⟩).result
      = Except.ok
          [⟨⟨1, 0, Side.Ask, 0⟩, ⟨3, 3, Side.Bid, 2⟩, 0, 100⟩,
           ⟨⟨2, 2, Side.Ask, 1⟩, ⟨3, 0, Side.Bid, 2⟩, 3, 100⟩] ∧
    (⟨⟨1, 0, Side.Ask, 0⟩, ⟨3, 3, Side.Bid, 2⟩, 0, 100⟩ : OrderMatch).size_filled = 0 := by
  constructor
  · norm_num [OrderBook.new, OrderBook.place_limit_order, OrderBook.place_market_order,
    OrderBook.place_market_bid_order, OrderBook.place_market_ask_order,
    OrderBook.ensure_volume, marketSweep, pruneAt, pruneAll, sumFilled,
    Limit.fill, fillLoop, removeIds, Limit.remove_op, Limit.remove_order,
    removeByUuid, removeByTimestamp, match_orders, Limit.new, Limit.add_order,
    insertByUuid, insertByTimestamp, Limit.is_empty, Order.is_filled,
    indexInsert, indexRemove, indexLookup, findLimit, addToAsks, addToBids,
    ordersSum, List.foldl]
  · rfl

/-- C9 (amended): every match produced by `Limit::fill` has
`size_filled > 0`, provided the aggressor's remaining size is strictly
positive and every resident order has strictly positive size (and the
opposite side) — i.e. the guarantee holds for books built from
positive-size orders only, not for books containing zero-size orders. -/
theorem fill_match_size_pos (l : Limit) (aggr : Order) (ha : 0 < aggr.size)
    (hr : ∀ o ∈ l.orders_by_uuid, 0 < o.size ∧ o.side = aggr.side.opposite) :
    ∀ m ∈ (l.fill aggr).trades, 0 < m.size_filled := by
  rw [fill_trades_def]
  exact fillLoop_trades_pos l.price l.orders_by_uuid aggr ha hr

theorem fill_match_size_pos_witness :
    (0 : ℚ) < (3 : ℚ) ∧
    ∀ m ∈ (((Limit.new 100).add_order ⟨1, 5, Side.Ask, 0⟩).fill ⟨2, 3, Side.Bid, 1⟩).trades,
      0 < m.size_filled :=
  ⟨by norm_num,
    fill_match_size_pos ((Limit.new 100).add_order ⟨1, 5, Side.Ask, 0⟩)
      ⟨2, 3, Side.Bid, 1⟩ (by norm_num)
      (by norm_num [OrderBook.new, OrderBook.place_limit_order, OrderBook.place_market_order,
    OrderBook.place_market_bid_order, OrderBook.place_market_ask_order,
    OrderBook.ensure_volume, marketSweep, pruneAt, pruneAll, sumFilled,
    Limit.fill, fillLoop, removeIds, Limit.remove_op, Limit.remove_order,
    removeByUuid, removeByTimestamp, match_orders, Limit.new, Limit.add_order,
    insertByUuid, insertByTimestamp, Limit.is_empty, Order.is_filled,
    indexInsert, indexRemove, indexLookup, findLimit, addToAsks, addToBids,
    ordersSum, List.foldl, Side.opposite])⟩

/-! ### Claim C2 -/

/-- C2 fails on the code: `Limit::fill` mutates resident sizes in place and
then removes fully-filled residents with `remove_order`, which subtracts the
*post-mutation* (zero) size — so `total_volume` is never decremented by a
fill. Filling a limit holding one ask of size 5 with a bid of size 3
transfers 3, leaves resident sizes summing to 2, but leaves
`total_volume = 5`. -/
theorem fill_does_not_decrement_total_volume :
    sumFilled ((((Limit.new 100).add_order ⟨1, 5, Side.Ask, 0⟩).fill
        ⟨2, 3, Side.Bid, 1⟩).trades) = 3 ∧
    ((((Limit.new 100).add_order ⟨1, 5, Side.Ask, 0⟩).fill
        ⟨2, 3, Side.Bid, 1⟩).limit).total_volume = 5 ∧
    ordersSum ((((Limit.new 100).add_order ⟨1, 5, Side.Ask, 0⟩).fill
        ⟨2, 3, Side.Bid, 1⟩).limit).orders_by_uuid = 2 := by
  refine ⟨?_, ?_, ?_⟩ <;> norm_num [OrderBook.new, OrderBook.place_limit_order, OrderBook.place_market_order,
    OrderBook.place_market_bid_order, OrderBook.place_market_ask_order,
    OrderBook.ensure_volume, marketSweep, pruneAt, pruneAll, sumFilled,
    Limit.fill, fillLoop, removeIds, Limit.remove_op, Limit.remove_order,
    removeByUuid, removeByTimestamp, match_orders, Limit.new, Limit.add_order,
    insertByUuid, insertByTimestamp, Limit.is_empty, Order.is_filled,
    indexInsert, indexRemove, indexLookup, findLimit, addToAsks, addToBids,
    ordersSum, List.foldl]

/-! ### Claim C3 -/

/-- C3 fails on the code: `Limit::fill` iterates `orders_by_uuid` (the
identity index), not `orders_by_timestamp`. With residents inserted in the
order (id 2, timestamp 2) then (id 1, timestamp 1), arrival order is
[1, 2] but a fill of size 1 matches resident id 2 first. -/
theorem fill_ignores_timestamp_order :
    ((((Limit.new 100).add_order ⟨2, 1, Side.Ask, 2⟩).add_order
        ⟨1, 1, Side.Ask, 1⟩).orders_by_timestamp.map Order.id = [1, 2]) ∧
    (((((Limit.new 100).add_order ⟨2, 1, Side.Ask, 2⟩).add_order
        ⟨1, 1, Side.Ask, 1⟩).fill ⟨3, 1, Side.Bid, 5⟩).trades.map
          (fun m => m.ask.id) = [2]) := by
  refine ⟨?_, ?_⟩ <;> norm_num [OrderBook.new, OrderBook.place_limit_order, OrderBook.place_market_order,
    OrderBook.place_market_bid_order, OrderBook.place_market_ask_order,
    OrderBook.ensure_volume, marketSweep, pruneAt, pruneAll, sumFilled,
    Limit.fill, fillLoop, removeIds, Limit.remove_op, Limit.remove_order,
    removeByUuid, removeByTimestamp, match_orders, Limit.new, Limit.add_order,
    insertByUuid, insertByTimestamp, Limit.is_empty, Order.is_filled,
    indexInsert, indexRemove, indexLookup, findLimit, addToAsks, addToBids,
    ordersSum, List.foldl]

/-! ### Claim C1 -/

/-- C1 fails on the code: `place_market_bid_order` / `place_market_ask_order`
never touch `order_index`, so an order fully consumed by a market order
keeps its index entry while its Limit no longer contains it (here the Limit
is even pruned from the book). -/
theorem market_order_leaves_stale_index :
    ((OrderBook.new.place_limit_order 100 ⟨1, 5, Side.Ask, 0⟩).place_market_order
        ⟨2, 5, Side.Bid, 1⟩).book.order_index = [(1, (Side.Ask, 100))] ∧
    ((OrderBook.new.place_limit_order 100 ⟨1, 5, Side.Ask, 0⟩).place_market_order
        ⟨2, 5, Side.Bid, 1⟩).book.asks = [] ∧
    ((OrderBook.new.place_limit_order 100 ⟨1, 5, Side.Ask, 0⟩).place_market_order
        ⟨2, 5, Side.Bid, 1⟩).book.bids = [] := by
  refine ⟨?_, ?_, ?_⟩ <;> norm_num [OrderBook.new, OrderBook.place_limit_order, OrderBook.place_market_order,
    OrderBook.place_market_bid_order, OrderBook.place_market_ask_order,
    OrderBook.ensure_volume, marketSweep, pruneAt, pruneAll, sumFilled,
    Limit.fill, fillLoop, removeIds, Limit.remove_op, Limit.remove_order,
    removeByUuid, removeByTimestamp, match_orders, Limit.new, Limit.add_order,
    insertByUuid, insertByTimestamp, Limit.is_empty, Order.is_filled,
    indexInsert, indexRemove, indexLookup, findLimit, addToAsks, addToBids,
    ordersSum, List.foldl]

/-! ### `place_limit_order` and the book invariant -/

theorem sideIds_cons (l : Limit) (ls : List Limit) :
    sideIds (l :: ls) = limitIds l ++ sideIds ls := by
  simp [sideIds]

theorem insertByUuid_fresh (o : Order) :
    ∀ (os : List Order), (∀ x ∈ os, x.id ≠ o.id) → insertByUuid o os = os ++ [o] := by
  intro os
  induction os with
  | nil => intro _; rfl
  | cons x xs ih =>
    intro h
    rw [insertByUuid, if_neg (h x (List.mem_cons_self x xs)),
      ih (fun y hy => h y (List.mem_cons_of_mem x hy))]
    rfl

theorem limitIds_fresh {l : Limit} {o : Order} (h : o.id ∉ limitIds l) :
    ∀ x ∈ l.orders_by_uuid, x.id ≠ o.id := by
  intro x hx hc
  exact h (hc ▸ List.mem_map_of_mem Order.id hx)

theorem add_order_uuid (l : Limit) (o : Order) (h : o.id ∉ limitIds l) :
    (l.add_order o).orders_by_uuid = l.orders_by_uuid ++ [o] := by
  unfold Limit.add_order
  simp only
  rw [insertByUuid_fresh o l.orders_by_uuid (limitIds_fresh h)]

theorem add_order_sum (l : Limit) (o : Order) (h : o.id ∉ limitIds l) :
    ordersSum (l.add_order o).orders_by_uuid = ordersSum l.orders_by_uuid + o.size := by
  rw [add_order_uuid l o h, ordersSum_append, ordersSum_cons, ordersSum_nil]
  ring

theorem add_order_price (l : Limit) (o : Order) : (l.add_order o).price = l.price := rfl

theorem add_order_wf (sd : Side) (l : Limit) (o : Order) (hwf : LimitWF sd l)
    (hside : o.side = sd) (hsz : 0 ≤ o.size) (h : o.id ∉ limitIds l) :
    LimitWF sd (l.add_order o) := by
  constructor
  · intro x hx
    rw [add_order_uuid l o h] at hx
    rcases List.mem_append.mp hx with hx | hx
    · exact hwf.1 x hx
    · rw [List.mem_singleton] at hx
      exact hx ▸ ⟨hside, hsz⟩
  · unfold limitIds
    rw [add_order_uuid l o h, List.map_append]
    rw [List.nodup_append]
    refine ⟨hwf.2, List.nodup_singleton _, ?_⟩
    intro a ha hb
    rw [List.map_singleton, List.mem_singleton] at hb
    exact h (hb ▸ ha)

theorem limit_new_wf (sd : Side) (price : ℚ) : LimitWF sd (Limit.new price) := by
  constructor <;> simp [Limit.new, limitIds]

theorem addToAsks_sum (price : ℚ) (o : Order) :
    ∀ (xs : List Limit), o.id ∉ sideIds xs →
      sideSum (addToAsks price o xs) = sideSum xs + o.size := by
  intro xs
  induction xs with
  | nil =>
    intro _
    rw [addToAsks, sideSum_cons, sideSum_nil,
      add_order_sum _ o (by simp [Limit.new, limitIds])]
    simp [Limit.new, ordersSum]
  | cons l ls ih =>
    intro h
    rw [sideIds_cons, List.mem_append] at h
    push_neg at h
    rw [addToAsks]
    split
    · rw [sideSum_cons, sideSum_cons, add_order_sum l o h.1]
      ring
    · split
      · rw [sideSum_cons, sideSum_cons,
          add_order_sum _ o (by simp [Limit.new, limitIds])]
        simp [Limit.new, ordersSum]
        ring
      · rw [sideSum_cons, sideSum_cons, ih h.2]
        ring

theorem addToBids_sum (price : ℚ) (o : Order) :
    ∀ (xs : List Limit), o.id ∉ sideIds xs →
      sideSum (addToBids price o xs) = sideSum xs + o.size := by
  intro xs
  induction xs with
  | nil =>
    intro _
    rw [addToBids, sideSum_cons, sideSum_nil,
      add_order_sum _ o (by simp [Limit.new, limitIds])]
    simp [Limit.new, ordersSum]
  | cons l ls ih =>
    intro h
    rw [sideIds_cons, List.mem_append] at h
    push_neg at h
    rw [addToBids]
    split
    · rw [sideSum_cons, sideSum_cons, add_order_sum l o h.1]
      ring
    · split
      · rw [sideSum_cons, sideSum_cons,
          add_order_sum _ o (by simp [Limit.new, limitIds])]
        simp [Limit.new, ordersSum]
        ring
      · rw [sideSum_cons, sideSum_cons, ih h.2]
        ring

theorem addToAsks_mem_wf (sd : Side) (price : ℚ) (o : Order) (hside : o.side = sd)
    (hsz : 0 ≤ o.size) :
    ∀ (xs : List Limit), o.id ∉ sideIds xs → (∀ l ∈ xs, LimitWF sd l) →
      ∀ l' ∈ addToAsks price o xs, LimitWF sd l' := by
  intro xs
  induction xs with
  | nil =>
    intro _ _ l' hl'
    rw [addToAsks, List.mem_singleton] at hl'
    exact hl' ▸ add_order_wf sd _ o (limit_new_wf sd price) hside hsz
      (by simp [Limit.new, limitIds])
  | cons l ls ih =>
    intro h hwf l' hl'
    rw [sideIds_cons, List.mem_append] at h
    push_neg at h
    rw [addToAsks] at hl'
    split at hl'
    · rcases List.mem_cons.mp hl' with rfl | hl'
      · exact add_order_wf sd l o (hwf l (List.mem_cons_self l ls)) hside hsz h.1
      · exact hwf l' (List.mem_cons_of_mem l hl')
    · split at hl'
      · rcases List.mem_cons.mp hl' with rfl | hl'
        · exact add_order_wf sd _ o (limit_new_wf sd price) hside hsz
            (by simp [Limit.new, limitIds])
        · exact hwf l' hl'
      · rcases List.mem_cons.mp hl' with rfl | hl'
        · exact hwf l' (List.mem_cons_self l' ls)
        · exact ih h.2 (fun x hx => hwf x (List.mem_cons_of_mem l hx)) l' hl'

theorem addToBids_mem_wf (sd : Side) (price : ℚ) (o : Order) (hside : o.side = sd)
    (hsz : 0 ≤ o.size) :
    ∀ (xs : List Limit), o.id ∉ sideIds xs → (∀ l ∈ xs, LimitWF sd l) →
      ∀ l' ∈ addToBids price o xs, LimitWF sd l' := by
  intro xs
  induction xs with
  | nil =>
    intro _ _ l' hl'
    rw [addToBids, List.mem_singleton] at hl'
    exact hl' ▸ add_order_wf sd _ o (limit_new_wf sd price) hside hsz
      (by simp [Limit.new, limitIds])
  | cons l ls ih =>
    intro h hwf l' hl'
    rw [sideIds_cons, List.mem_append] at h
    push_neg at h
    rw [addToBids] at hl'
    split at hl'
    · rcases List.mem_cons.mp hl' with rfl | hl'
      · exact add_order_wf sd l o (hwf l (List.mem_cons_self l ls)) hside hsz h.1
      · exact hwf l' (List.mem_cons_of_mem l hl')
    · split at hl'
      · rcases List.mem_cons.mp hl' with rfl | hl'
        · exact add_order_wf sd _ o (limit_new_wf sd price) hside hsz
            (by simp [Limit.new, limitIds])
        · exact hwf l' hl'
      · rcases List.mem_cons.mp hl' with rfl | hl'
        · exact hwf l' (List.mem_cons_self l' ls)
        · exact ih h.2 (fun x hx => hwf x (List.mem_cons_of_mem l hx)) l' hl'

theorem addToAsks_price_mem (price : ℚ) (o : Order) :
    ∀ (xs : List Limit) (q : ℚ),
      q ∈ (addToAsks price o xs).map Limit.price ↔ q = price ∨ q ∈ xs.map Limit.price := by
  intro xs
  induction xs with
  | nil => intro q; simp [addToAsks, add_order_price, Limit.new]
  | cons l ls ih =>
    intro q
    rw [addToAsks]
    split
    · rename_i heq
      simp only [List.map_cons, List.mem_cons, add_order_price]
      rw [heq]
      tauto
    · split
      · simp only [List.map_cons, List.mem_cons, add_order_price]
        show q = (Limit.new price).price ∨ _ ↔ _
        simp only [Limit.new]
        try tauto
      · simp only [List.map_cons, List.mem_cons, ih q]
        tauto

theorem addToBids_price_mem (price : ℚ) (o : Order) :
    ∀ (xs : List Limit) (q : ℚ),
      q ∈ (addToBids price o xs).map Limit.price ↔ q = price ∨ q ∈ xs.map Limit.price := by
  intro xs
  induction xs with
  | nil => intro q; simp [addToBids, add_order_price, Limit.new]
  | cons l ls ih =>
    intro q
    rw [addToBids]
    split
    · rename_i heq
      simp only [List.map_cons, List.mem_cons, add_order_price]
      rw [heq]
      tauto
    · split
      · simp only [List.map_cons, List.mem_cons, add_order_price]
        show q = (Limit.new price).price ∨ _ ↔ _
        simp only [Limit.new]
        try tauto
      · simp only [List.map_cons, List.mem_cons, ih q]
        tauto

theorem limit_new_price (price : ℚ) : (Limit.new price).price = price := rfl

theorem addToAsks_sorted (price : ℚ) (o : Order) :
    ∀ (xs : List Limit),
      ((xs.map Limit.price).Sorted (fun a b => a < b)) →
      ((xs.map Limit.price).Nodup) →
      (((addToAsks price o xs).map Limit.price).Sorted (fun a b => a < b)) ∧
      (((addToAsks price o xs).map Limit.price).Nodup) := by
  intro xs
  induction xs with
  | nil =>
    intro _ _
    rw [addToAsks]
    constructor <;> simp [add_order_price, Limit.new]
  | cons l ls ih =>
    intro hs hn
    rw [List.map_cons, List.sorted_cons] at hs
    rw [List.map_cons, List.nodup_cons] at hn
    rw [addToAsks]
    by_cases heq : l.price = price
    · rw [if_pos heq]
      rw [List.map_cons, add_order_price, List.sorted_cons, List.nodup_cons]
      exact ⟨⟨hs.1, hs.2⟩, hn.1, hn.2⟩
    · rw [if_neg heq]
      by_cases hlt : price < l.price
      · rw [if_pos hlt]
        simp only [List.map_cons, add_order_price, limit_new_price]
        rw [List.sorted_cons, List.nodup_cons]
        refine ⟨⟨?_, ?_⟩, ?_, ?_⟩
        · intro b hb
          rcases List.mem_cons.mp hb with rfl | hb
          · exact hlt
          · exact lt_trans hlt (hs.1 b hb)
        · rw [List.sorted_cons]
          exact hs
        · intro hc
          rcases List.mem_cons.mp hc with heq2 | hc
          · exact heq heq2.symm
          · exact (lt_asymm hlt) (hs.1 price hc)
        · rw [List.nodup_cons]
          exact hn
      · rw [if_neg hlt]
        have hgt : l.price < price := by
          rcases lt_trichotomy price l.price with h | h | h
          · exact absurd h hlt
          · exact absurd h.symm heq
          · exact h
        rw [List.map_cons, List.sorted_cons, List.nodup_cons]
        obtain ⟨ihs, ihn⟩ := ih hs.2 hn.2
        refine ⟨⟨?_, ihs⟩, ?_, ihn⟩
        · intro b hb
          rcases (addToAsks_price_mem price o ls b).mp hb with rfl | hb
          · exact hgt
          · exact hs.1 b hb
        · intro hc
          rcases (addToAsks_price_mem price o ls l.price).mp hc with heq2 | hc
          · exact heq heq2
          · exact hn.1 hc

theorem addToBids_sorted (price : ℚ) (o : Order) :
    ∀ (xs : List Limit),
      ((xs.map Limit.price).Sorted (fun a b => b < a)) →
      ((xs.map Limit.price).Nodup) →
      (((addToBids price o xs).map Limit.price).Sorted (fun a b => b < a)) ∧
      (((addToBids price o xs).map Limit.price).Nodup) := by
  intro xs
  induction xs with
  | nil =>
    intro _ _
    rw [addToBids]
    constructor <;> simp [add_order_price, Limit.new]
  | cons l ls ih =>
    intro hs hn
    rw [List.map_cons, List.sorted_cons] at hs
    rw [List.map_cons, List.nodup_cons] at hn
    rw [addToBids]
    by_cases heq : l.price = price
    · rw [if_pos heq]
      rw [List.map_cons, add_order_price, List.sorted_cons, List.nodup_cons]
      exact ⟨⟨hs.1, hs.2⟩, hn.1, hn.2⟩
    · rw [if_neg heq]
      by_cases hlt : l.price < price
      · rw [if_pos hlt]
        simp only [List.map_cons, add_order_price, limit_new_price]
        rw [List.sorted_cons, List.nodup_cons]
        refine ⟨⟨?_, ?_⟩, ?_, ?_⟩
        · intro b hb
          rcases List.mem_cons.mp hb with rfl | hb
          · exact hlt
          · exact lt_trans (hs.1 b hb) hlt
        · rw [List.sorted_cons]
          exact hs
        · intro hc
          rcases List.mem_cons.mp hc with heq2 | hc
          · exact heq heq2.symm
          · exact (lt_asymm hlt) (hs.1 price hc)
        · rw [List.nodup_cons]
          exact hn
      · rw [if_neg hlt]
        have hgt : price < l.price := by
          rcases lt_trichotomy price l.price with h | h | h
          · exact h
          · exact absurd h.symm heq
          · exact absurd h hlt
        rw [List.map_cons, List.sorted_cons, List.nodup_cons]
        obtain ⟨ihs, ihn⟩ := ih hs.2 hn.2
        refine ⟨⟨?_, ihs⟩, ?_, ihn⟩
        · intro b hb
          rcases (addToBids_price_mem price o ls b).mp hb with rfl | hb
          · exact hgt
          · exact hs.1 b hb
        · intro hc
          rcases (addToBids_price_mem price o ls l.price).mp hc with heq2 | hc
          · exact heq heq2
          · exact hn.1 hc

theorem inv_place_limit (b : OrderBook) (hInv : Inv b) (price : ℚ) (o : Order)
    (ho : 0 ≤ o.size) (hfresh : o.id ∉ bookIds b) :
    Inv (b.place_limit_order price o) := by
  obtain ⟨⟨hwfA, hsA, hnA⟩, ⟨hwfB, hsB, hnB⟩, hvA, hvB⟩ := hInv
  rw [bookIds, List.mem_append] at hfresh
  push_neg at hfresh
  unfold OrderBook.place_limit_order
  cases hside : o.side
  case Bid =>
    simp only
    obtain ⟨hS, hN⟩ := addToBids_sorted price o b.bids hsB hnB
    exact ⟨⟨hwfA, hsA, hnA⟩,
      ⟨addToBids_mem_wf Side.Bid price o hside ho b.bids hfresh.2 hwfB, hS, hN⟩,
      hvA, by rw [addToBids_sum price o b.bids hfresh.2, hvB]⟩
  case Ask =>
    simp only
    obtain ⟨hS, hN⟩ := addToAsks_sorted price o b.asks hsA hnA
    exact ⟨⟨addToAsks_mem_wf Side.Ask price o hside ho b.asks hfresh.1 hwfA, hS, hN⟩,
      ⟨hwfB, hsB, hnB⟩,
      by rw [addToAsks_sum price o b.asks hfresh.1, hvA], hvB⟩

/-! ### `cancel_order` and the book invariant -/

theorem remove_order_wf (sd : Side) (l : Limit) (id : Nat) (o : Order) (l' : Limit)
    (hwf : LimitWF sd l) (h : l.remove_order id = some (o, l')) : LimitWF sd l' := by
  have hs := remove_order_some l id o l' h
  constructor
  · intro x hx
    exact hwf.1 x (hs.2.2.2.1.subset hx)
  · exact hwf.2.sublist (hs.2.2.2.1.map Order.id)

/-- Characterisation of `cancelSide` on success: the removed order's size
leaves the side sum, every remaining limit is well-formed, and the price
list shrinks to a sublist (equal when the limit survives, one price dropped
when it is pruned). -/
theorem cancelSide_inv (id : Nat) (price : ℚ) :
    ∀ (xs : List Limit) (o : Order) (xs' : List Limit),
      cancelSide id price xs = some (o, xs') →
      sideSum xs' = sideSum xs - o.size ∧
      (∀ sd, (∀ l ∈ xs, LimitWF sd l) → ∀ l' ∈ xs', LimitWF sd l') ∧
      (xs'.map Limit.price).Sublist (xs.map Limit.price) := by
  intro xs
  induction xs with
  | nil => intro o xs' h; simp [cancelSide] at h
  | cons l ls ih =>
    intro o xs' h
    rw [cancelSide] at h
    split at h
    · rename_i hp
      cases hro : l.remove_order id with
      | none => rw [hro] at h; simp at h
      | some p =>
        obtain ⟨o₀, l'⟩ := p
        rw [hro] at h
        simp only [Option.some.injEq, Prod.mk.injEq] at h
        obtain ⟨rfl, rfl⟩ := h
        have hs := remove_order_some l id o₀ l' hro
        by_cases he : l'.is_empty = true
        · rw [if_pos he]
          have hord : l'.orders_by_uuid = [] := (is_empty_iff l').mp he
          have hsum0 : ordersSum l'.orders_by_uuid = 0 := by rw [hord]; rfl
          refine ⟨?_, ?_, ?_⟩
          · rw [sideSum_cons]
            have := hs.2.2.1
            rw [hsum0] at this
            linarith
          · intro sd hwf x hx
            exact hwf x (List.mem_cons_of_mem l hx)
          · rw [List.map_cons]
            exact List.sublist_cons_self l.price (ls.map Limit.price)
        · rw [if_neg he]
          refine ⟨?_, ?_, ?_⟩
          · rw [sideSum_cons, sideSum_cons, hs.2.2.1]
            ring
          · intro sd hwf x hx
            rcases List.mem_cons.mp hx with rfl | hx
            · exact remove_order_wf sd l id o₀ _ (hwf l (List.mem_cons_self l ls)) hro
            · exact hwf x (List.mem_cons_of_mem l hx)
          · rw [List.map_cons, List.map_cons, hs.2.2.2.2.1]
    · rename_i hp
      cases hc : cancelSide id price ls with
      | none => rw [hc] at h; simp at h
      | some p =>
        obtain ⟨o₀, ls'⟩ := p
        rw [hc] at h
        simp only [Option.map_some', Option.some.injEq, Prod.mk.injEq] at h
        obtain ⟨rfl, rfl⟩ := h
        obtain ⟨ih1, ih2, ih3⟩ := ih o₀ ls' hc
        refine ⟨?_, ?_, ?_⟩
        · rw [sideSum_cons, sideSum_cons, ih1]
          ring
        · intro sd hwf x hx
          rcases List.mem_cons.mp hx with rfl | hx
          · exact hwf x (List.mem_cons_self x ls)
          · exact ih2 sd (fun y hy => hwf y (List.mem_cons_of_mem l hy)) x hx
        · rw [List.map_cons, List.map_cons]
          exact ih3.cons₂ l.price

theorem inv_components (b : OrderBook) (asks bids : List Limit) (av bv : ℚ)
    (idx : List (Nat × Side × ℚ)) :
    Inv { asks := asks, bids := bids, ask_total_volume := av, bid_total_volume := bv,
          order_index := idx } ↔
      SideWF Side.Ask (fun a b => a < b) asks ∧ SideWF Side.Bid (fun a b => b < a) bids ∧
      av = sideSum asks ∧ bv = sideSum bids := Iff.rfl

theorem inv_cancel (b : OrderBook) (hInv : Inv b) (id : Nat) :
    Inv (b.cancel_order id).book := by
  unfold OrderBook.cancel_order
  cases hidx : indexRemove id b.order_index with
  | none => exact hInv
  | some p =>
    obtain ⟨sp, idx⟩ := p
    simp only
    obtain ⟨⟨hwfA, hsA, hnA⟩, ⟨hwfB, hsB, hnB⟩, hvA, hvB⟩ := hInv
    cases hside : sp.1
    case Bid =>
      simp only
      unfold OrderBook.cancel_bid_order
      cases hc : cancelSide id sp.2 b.bids with
      | none => exact ⟨⟨hwfA, hsA, hnA⟩, ⟨hwfB, hsB, hnB⟩, hvA, hvB⟩
      | some q =>
        obtain ⟨o, bids'⟩ := q
        simp only
        obtain ⟨h1, h2, h3⟩ := cancelSide_inv id sp.2 b.bids o bids' hc
        exact ⟨⟨hwfA, hsA, hnA⟩,
          ⟨h2 Side.Bid hwfB, hsB.sublist h3, hnB.sublist h3⟩,
          hvA, by rw [h1, hvB]⟩
    case Ask =>
      simp only
      unfold OrderBook.cancel_ask_order
      cases hc : cancelSide id sp.2 b.asks with
      | none => exact ⟨⟨hwfA, hsA, hnA⟩, ⟨hwfB, hsB, hnB⟩, hvA, hvB⟩
      | some q =>
        obtain ⟨o, asks'⟩ := q
        simp only
        obtain ⟨h1, h2, h3⟩ := cancelSide_inv id sp.2 b.asks o asks' hc
        exact ⟨⟨h2 Side.Ask hwfA, hsA.sublist h3, hnA.sublist h3⟩,
          ⟨hwfB, hsB, hnB⟩,
          by rw [h1, hvA], hvB⟩

/-! ### The market sweep and the book invariant -/

theorem fill_order_nonneg (l : Limit) (aggr : Order) (ha : 0 ≤ aggr.size)
    (hr : ∀ o ∈ l.orders_by_uuid, 0 ≤ o.size) : 0 ≤ (l.fill aggr).order.size := by
  rw [fill_order_def]
  exact (fillLoop_nonneg l.price l.orders_by_uuid aggr ha hr).1

/-- The bundle of facts about one market sweep over a well-formed side. -/
theorem marketSweep_spec (sd : Side) :
    ∀ (ls : List Limit) (aggr : Order),
      (∀ l ∈ ls, LimitWF sd l) → ((ls.map Limit.price).Nodup) → 0 ≤ aggr.size →
      (marketSweep aggr ls).order.size = aggr.size - sumFilled (marketSweep aggr ls).trades ∧
      sideSum (marketSweep aggr ls).limits = sideSum ls - sumFilled (marketSweep aggr ls).trades ∧
      (marketSweep aggr ls).limits.map Limit.price = ls.map Limit.price ∧
      (∀ l' ∈ (marketSweep aggr ls).limits, LimitWF sd l') ∧
      (∀ p ∈ (marketSweep aggr ls).empties,
        ∀ l' ∈ (marketSweep aggr ls).limits, l'.price = p → l'.orders_by_uuid = []) ∧
      (∀ p ∈ (marketSweep aggr ls).empties, p ∈ ls.map Limit.price) ∧
      0 ≤ (marketSweep aggr ls).order.size := by
  intro ls
  induction ls with
  | nil =>
    intro aggr _ _ ha
    refine ⟨by simp [marketSweep, sumFilled], by simp [marketSweep, sumFilled], rfl, ?_, ?_, ?_, ha⟩
    all_goals intro x hx; simp [marketSweep] at hx
  | cons l ls ih =>
    intro aggr hwf hnd ha
    have hwf_head := hwf l (List.mem_cons_self l ls)
    have hwf_tail : ∀ x ∈ ls, LimitWF sd x := fun x hx => hwf x (List.mem_cons_of_mem l hx)
    rw [List.map_cons, List.nodup_cons] at hnd
    rw [marketSweep]
    split
    · refine ⟨by simp [sumFilled], by simp [sumFilled], rfl, hwf, ?_, ?_, ha⟩
      all_goals intro x hx; simp at hx
    · have hff := fill_order_size l aggr
      have hfs := fill_sum l aggr hwf_head.2
      have hfp := fill_price l aggr
      have hfk := fill_order_keys l aggr
      have hfn := fill_order_nonneg l aggr ha (fun o ho => (hwf_head.1 o ho).2)
      have hfwf : LimitWF sd (l.fill aggr).limit :=
        ⟨fill_side_nonneg l aggr sd (fun o ho => (hwf_head.1 o ho).1)
          (fun o ho => (hwf_head.1 o ho).2) ha, fill_nodup l aggr hwf_head.2⟩
      obtain ⟨ih1, ih2, ih3, ih4, ih5, ih6, ih7⟩ :=
        ih (l.fill aggr).order hwf_tail hnd.2 hfn
      refine ⟨?_, ?_, ?_, ?_, ?_, ?_, ih7⟩
      · simp only [sumFilled_append]
        rw [ih1, hff]
        ring
      · rw [sideSum_cons, sideSum_cons, sumFilled_append, ih2, hfs]
        ring
      · rw [List.map_cons, List.map_cons, ih3, hfp]
      · intro x hx
        rcases List.mem_cons.mp hx with rfl | hx
        · exact hfwf
        · exact ih4 x hx
      · intro p hp x hx hxp
        rw [List.mem_append] at hp
        rcases hp with hp | hp
        · have hpl : p = l.price := by
            split at hp
            · exact List.mem_singleton.mp hp
            · simp at hp
          have hemp : (l.fill aggr).limit.is_empty = true := by
            split at hp
            · assumption
            · simp at hp
          rcases List.mem_cons.mp hx with rfl | hx
          · exact (is_empty_iff _).mp hemp
          · exfalso
            have : x.price ∈ (marketSweep (l.fill aggr).order ls).limits.map Limit.price :=
              List.mem_map_of_mem Limit.price hx
            rw [ih3] at this
            rw [hxp, hpl] at this
            exact hnd.1 this
        · rcases List.mem_cons.mp hx with rfl | hx
          · exfalso
            have hpm := ih6 p hp
            have hpl2 : p = l.price := by rw [← hxp, hfp]
            rw [hpl2] at hpm
            exact hnd.1 hpm
          · exact ih5 p hp x hx hxp
      · intro p hp
        rw [List.mem_append] at hp
        rw [List.map_cons]
        rcases hp with hp | hp
        · have hpl : p = l.price := by
            split at hp
            · exact List.mem_singleton.mp hp
            · simp at hp
          exact hpl ▸ List.mem_cons_self _ _
        · exact List.mem_cons_of_mem _ (ih6 p hp)

theorem pruneAt_sub_mem (p : ℚ) :
    ∀ (xs : List Limit),
      ((pruneAt p xs).map Limit.price).Sublist (xs.map Limit.price) ∧
      (∀ l ∈ pruneAt p xs, l ∈ xs) := by
  intro xs
  induction xs with
  | nil => exact ⟨List.Sublist.refl _, by intro l hl; simp [pruneAt] at hl⟩
  | cons l ls ih =>
    rw [pruneAt]
    split
    · refine ⟨List.sublist_cons_self _ _, ?_⟩
      intro x hx
      exact List.mem_cons_of_mem l hx
    · refine ⟨by rw [List.map_cons, List.map_cons]; exact ih.1.cons₂ l.price, ?_⟩
      intro x hx
      rcases List.mem_cons.mp hx with rfl | hx
      · exact List.mem_cons_self x ls
      · exact List.mem_cons_of_mem l (ih.2 x hx)

theorem pruneAt_sum (p : ℚ) :
    ∀ (xs : List Limit), (∀ l ∈ xs, l.price = p → l.orders_by_uuid = []) →
      sideSum (pruneAt p xs) = sideSum xs := by
  intro xs
  induction xs with
  | nil => intro _; rfl
  | cons l ls ih =>
    intro h
    rw [pruneAt]
    split
    · rename_i hp
      have : l.orders_by_uuid = [] := h l (List.mem_cons_self l ls) hp
      rw [sideSum_cons, this]
      show sideSum ls = ordersSum [] + sideSum ls
      rw [ordersSum_nil]
      ring
    · rw [sideSum_cons, sideSum_cons, ih (fun x hx => h x (List.mem_cons_of_mem l hx))]

theorem pruneAll_cons (xs : List Limit) (p : ℚ) (ps : List ℚ) :
    pruneAll xs (p :: ps) = pruneAll (pruneAt p xs) ps := rfl

theorem pruneAll_spec :
    ∀ (prices : List ℚ) (xs : List Limit),
      (∀ p ∈ prices, ∀ l ∈ xs, l.price = p → l.orders_by_uuid = []) →
      sideSum (pruneAll xs prices) = sideSum xs ∧
      ((pruneAll xs prices).map Limit.price).Sublist (xs.map Limit.price) ∧
      (∀ l ∈ pruneAll xs prices, l ∈ xs) := by
  intro prices
  induction prices with
  | nil => intro xs _; exact ⟨rfl, List.Sublist.refl _, fun l hl => hl⟩
  | cons p ps ih =>
    intro xs h
    rw [pruneAll_cons]
    have hhead := pruneAt_sum p xs (h p (List.mem_cons_self p ps))
    have hsub := pruneAt_sub_mem p xs
    have htail : ∀ q ∈ ps, ∀ l ∈ pruneAt p xs, l.price = q → l.orders_by_uuid = [] :=
      fun q hq l hl => h q (List.mem_cons_of_mem p hq) l (hsub.2 l hl)
    obtain ⟨ih1, ih2, ih3⟩ := ih (pruneAt p xs) htail
    exact ⟨by rw [ih1, hhead], ih2.trans hsub.1, fun l hl => hsub.2 l (ih3 l hl)⟩

theorem inv_market (b : OrderBook) (hInv : Inv b) (o : Order) (ho : 0 ≤ o.size) :
    Inv (b.place_market_order o).book := by
  unfold OrderBook.place_market_order
  cases hev : b.ensure_volume o with
  | error e => exact hInv
  | ok u =>
    obtain ⟨⟨hwfA, hsA, hnA⟩, ⟨hwfB, hsB, hnB⟩, hvA, hvB⟩ := hInv
    cases hside : o.side
    case Bid =>
      simp only
      unfold OrderBook.place_market_bid_order
      simp only
      obtain ⟨s1, s2, s3, s4, s5, s6, s7⟩ := marketSweep_spec Side.Ask b.asks o hwfA hnA ho
      have hcond : ∀ p ∈ (marketSweep o b.asks).empties,
          ∀ l ∈ (marketSweep o b.asks).limits, l.price = p → l.orders_by_uuid = [] := s5
      obtain ⟨p1, p2, p3⟩ :=
        pruneAll_spec (marketSweep o b.asks).empties (marketSweep o b.asks).limits hcond
      refine ⟨⟨?_, ?_, ?_⟩, ⟨hwfB, hsB, hnB⟩, ?_, hvB⟩
      · exact fun l hl => s4 l (p3 l hl)
      · exact hsA.sublist (s3 ▸ p2)
      · exact hnA.sublist (s3 ▸ p2)
      · rw [p1, s2, hvA]
    case Ask =>
      simp only
      unfold OrderBook.place_market_ask_order
      simp only
      obtain ⟨s1, s2, s3, s4, s5, s6, s7⟩ := marketSweep_spec Side.Bid b.bids o hwfB hnB ho
      have hcond : ∀ p ∈ (marketSweep o b.bids).empties,
          ∀ l ∈ (marketSweep o b.bids).limits, l.price = p → l.orders_by_uuid = [] := s5
      obtain ⟨p1, p2, p3⟩ :=
        pruneAll_spec (marketSweep o b.bids).empties (marketSweep o b.bids).limits hcond
      refine ⟨⟨hwfA, hsA, hnA⟩, ⟨?_, ?_, ?_⟩, hvA, ?_⟩
      · exact fun l hl => s4 l (p3 l hl)
      · exact hsB.sublist (s3 ▸ p2)
      · exact hnB.sublist (s3 ▸ p2)
      · rw [p1, s2, hvB]

/-- Every reachable book satisfies the volume/well-formedness invariant. -/
theorem reachable_inv {b : OrderBook} (h : Reachable b) : Inv b := by
  induction h with
  | new =>
    refine ⟨⟨?_, ?_, ?_⟩, ⟨?_, ?_, ?_⟩, rfl, rfl⟩ <;> simp [OrderBook.new, sideSum]
  | placeLimit price o _ hsz hfresh ih => exact inv_place_limit _ ih price o hsz hfresh
  | cancel id _ ih => exact inv_cancel _ ih id
  | market o _ hsz ih => exact inv_market _ ih o hsz

/-! ### Claim C4 -/

/-- C4: for every sequence of `place_limit_order`, `cancel_order` and
`place_market_order` calls starting from a new `OrderBook` (with
non-negative sizes and fresh ids, as `Order::new` guarantees), after each
call `ask_total_volume` equals the sum of the current sizes of the resident
ask orders, and `bid_total_volume` the same over the resident bid orders. -/
theorem reachable_volume_invariant (b : OrderBook) (h : Reachable b) :
    b.ask_total_volume = sideSum b.asks ∧ b.bid_total_volume = sideSum b.bids :=
  ⟨(reachable_inv h).2.2.1, (reachable_inv h).2.2.2⟩

theorem reachable_volume_invariant_witness :
    ((OrderBook.new.place_limit_order 100 ⟨1, 5, Side.Ask, 0⟩).cancel_order 2).book.ask_total_volume
        = sideSum ((OrderBook.new.place_limit_order 100 ⟨1, 5, Side.Ask, 0⟩).cancel_order 2).book.asks ∧
    ((OrderBook.new.place_limit_order 100 ⟨1, 5, Side.Ask, 0⟩).cancel_order 2).book.bid_total_volume
        = sideSum ((OrderBook.new.place_limit_order 100 ⟨1, 5, Side.Ask, 0⟩).cancel_order 2).book.bids :=
  reachable_volume_invariant _
    (Reachable.cancel 2
      (Reachable.placeLimit 100 ⟨1, 5, Side.Ask, 0⟩ Reachable.new (by norm_num) (by decide)))

/-! ### Claim C6 -/

/-- C6: `place_market_order` fails with `NotEnoughVolume` exactly when the
opposing side's aggregate volume is strictly below the order's size; the
error record carries the aggressor's side, the aggressor's size as
`expected_volume`, and the opposing aggregate as `actual_volume`; and on
that error nothing — book or order — has been mutated. -/
theorem place_market_order_not_enough_volume (b : OrderBook) (o : Order) :
    ((∃ e, (b.place_market_order o).result = Except.error e) ↔ oppVolume b o < o.size) ∧
    (oppVolume b o < o.size →
      (b.place_market_order o).result
        = Except.error (OrderBookError.NotEnoughVolume o.side o.size (oppVolume b o)) ∧
      (b.place_market_order o).book = b ∧ (b.place_market_order o).order = o) := by
  unfold OrderBook.place_market_order OrderBook.ensure_volume oppVolume
  by_cases hc :
      (match o.side with
       | Side.Bid => b.ask_total_volume
       | Side.Ask => b.bid_total_volume) < o.size
  · rw [if_pos hc]
    exact ⟨⟨fun _ => hc, fun _ => ⟨_, rfl⟩⟩, fun _ => ⟨rfl, rfl, rfl⟩⟩
  · rw [if_neg hc]
    refine ⟨⟨?_, fun h => absurd h hc⟩, fun h => absurd h hc⟩
    intro ⟨e, he⟩
    cases hside : o.side <;> rw [hside] at he <;>
      simp only [OrderBook.place_market_bid_order, OrderBook.place_market_ask_order] at he <;>
      exact absurd he (by simp)

theorem place_market_order_not_enough_volume_witness :
    oppVolume (OrderBook.new.place_limit_order 100 ⟨1, 2, Side.Ask, 0⟩) ⟨2, 5, Side.Bid, 1⟩
        < (5 : ℚ) ∧
    ((OrderBook.new.place_limit_order 100 ⟨1, 2, Side.Ask, 0⟩).place_market_order
        ⟨2, 5, Side.Bid, 1⟩).result
      = Except.error (OrderBookError.NotEnoughVolume Side.Bid 5
          (oppVolume (OrderBook.new.place_limit_order 100 ⟨1, 2, Side.Ask, 0⟩)
            ⟨2, 5, Side.Bid, 1⟩)) ∧
    ((OrderBook.new.place_limit_order 100 ⟨1, 2, Side.Ask, 0⟩).place_market_order
        ⟨2, 5, Side.Bid, 1⟩).book = OrderBook.new.place_limit_order 100 ⟨1, 2, Side.Ask, 0⟩ ∧
    ((OrderBook.new.place_limit_order 100 ⟨1, 2, Side.Ask, 0⟩).place_market_order
        ⟨2, 5, Side.Bid, 1⟩).order = ⟨2, 5, Side.Bid, 1⟩ := by
  have hlt : oppVolume (OrderBook.new.place_limit_order 100 ⟨1, 2, Side.Ask, 0⟩)
      ⟨2, 5, Side.Bid, 1⟩ < (5 : ℚ) := by
    norm_num [oppVolume, OrderBook.new, OrderBook.place_limit_order, addToAsks,
      Limit.new, Limit.add_order]
  exact ⟨hlt,
    (place_market_order_not_enough_volume
      (OrderBook.new.place_limit_order 100 ⟨1, 2, Side.Ask, 0⟩) ⟨2, 5, Side.Bid, 1⟩).2 hlt⟩

/-! ### Claim C5 -/

theorem marketSweep_zero (ls : List Limit) (aggr : Order) (h : aggr.size = 0) :
    (marketSweep aggr ls).order = aggr := by
  cases ls with
  | nil => rfl
  | cons l ls' =>
    rw [marketSweep, if_pos ((is_filled_iff aggr).mpr h)]

/-- With enough opposing volume resident, the sweep drives the aggressor's
remaining size to zero. -/
theorem marketSweep_full (sd : Side) :
    ∀ (ls : List Limit) (aggr : Order),
      (∀ l ∈ ls, LimitWF sd l) → 0 ≤ aggr.size →
      (∀ l ∈ ls, ∀ x ∈ l.orders_by_uuid, x.side = aggr.side.opposite) →
      aggr.size ≤ sideSum ls →
      (marketSweep aggr ls).order.size = 0 := by
  intro ls
  induction ls with
  | nil =>
    intro aggr _ ha _ hle
    rw [sideSum_nil] at hle
    have : aggr.size = 0 := le_antisymm hle ha
    rw [marketSweep_zero [] aggr this]
    exact this
  | cons l ls ih =>
    intro aggr hwf ha hside hle
    rw [marketSweep]
    split
    · rename_i hf
      exact (is_filled_iff aggr).mp hf
    · rename_i hf
      have hwf_head := hwf l (List.mem_cons_self l ls)
      have hnn_head : ∀ x ∈ l.orders_by_uuid, 0 ≤ x.size :=
        fun x hx => (hwf_head.1 x hx).2
      have hcons : (l.fill aggr).order.size
          = aggr.size - min aggr.size (ordersSum l.orders_by_uuid) :=
        fill_consume l aggr ha
          (fun x hx => ⟨hnn_head x hx, hside l (List.mem_cons_self l ls) x hx⟩)
      by_cases hc : aggr.size ≤ ordersSum l.orders_by_uuid
      · have hz : (l.fill aggr).order.size = 0 := by
          rw [hcons, min_eq_left hc]
          ring
        rw [marketSweep_zero ls (l.fill aggr).order hz]
        exact hz
      · push_neg at hc
        have hfn : 0 ≤ (l.fill aggr).order.size := fill_order_nonneg l aggr ha hnn_head
        have hside' : ∀ x ∈ ls, ∀ y ∈ x.orders_by_uuid,
            y.side = (l.fill aggr).order.side.opposite := by
          intro x hx y hy
          rw [(fill_order_keys l aggr).2.1]
          exact hside x (List.mem_cons_of_mem l hx) y hy
        have hle' : (l.fill aggr).order.size ≤ sideSum ls := by
          rw [hcons, min_eq_right (le_of_lt hc)]
          rw [sideSum_cons] at hle
          linarith
        exact ih (l.fill aggr).order
          (fun x hx => hwf x (List.mem_cons_of_mem l hx)) hfn hside' hle'

/-- C5: from every reachable book, `place_market_order` either returns
`NotEnoughVolume` having mutated nothing, or fully fills the aggressor:
when the pre-check passes, the aggressor's remaining size is zero on return
and the `size_filled` of the returned matches sums to the aggressor's
original size. -/
theorem place_market_order_full_fill (b : OrderBook) (hb : Reachable b) (o : Order)
    (ho : 0 ≤ o.size) :
    (∃ e, (b.place_market_order o).result = Except.error e ∧
      (b.place_market_order o).book = b ∧ (b.place_market_order o).order = o) ∨
    (∃ ms, (b.place_market_order o).result = Except.ok ms ∧
      (b.place_market_order o).order.size = 0 ∧ sumFilled ms = o.size) := by
  obtain ⟨⟨hwfA, hsA, hnA⟩, ⟨hwfB, hsB, hnB⟩, hvA, hvB⟩ := reachable_inv hb
  unfold OrderBook.place_market_order OrderBook.ensure_volume
  by_cases hc :
      (match o.side with
       | Side.Bid => b.ask_total_volume
       | Side.Ask => b.bid_total_volume) < o.size
  · left
    rw [if_pos hc]
    exact ⟨_, rfl, rfl, rfl⟩
  · right
    rw [if_neg hc]
    push_neg at hc
    cases hside : o.side with
    | Bid =>
      rw [hside] at hc
      simp only at hc
      have hsides : ∀ l ∈ b.asks, ∀ x ∈ l.orders_by_uuid, x.side = o.side.opposite := by
        intro l hl x hx
        rw [hside]
        exact ((hwfA l hl).1 x hx).1
      have hfull : (marketSweep o b.asks).order.size = 0 :=
        marketSweep_full Side.Ask b.asks o hwfA ho hsides (by rw [← hvA]; exact hc)
      have hs1 := (marketSweep_spec Side.Ask b.asks o hwfA hnA ho).1
      refine ⟨(marketSweep o b.asks).trades, rfl, hfull, ?_⟩
      rw [hfull] at hs1
      linarith
    | Ask =>
      rw [hside] at hc
      simp only at hc
      have hsides : ∀ l ∈ b.bids, ∀ x ∈ l.orders_by_uuid, x.side = o.side.opposite := by
        intro l hl x hx
        rw [hside]
        exact ((hwfB l hl).1 x hx).1
      have hfull : (marketSweep o b.bids).order.size = 0 :=
        marketSweep_full Side.Bid b.bids o hwfB ho hsides (by rw [← hvB]; exact hc)
      have hs1 := (marketSweep_spec Side.Bid b.bids o hwfB hnB ho).1
      refine ⟨(marketSweep o b.bids).trades, rfl, hfull, ?_⟩
      rw [hfull] at hs1
      linarith

theorem place_market_order_full_fill_witness :
    (0 : ℚ) ≤ (5 : ℚ) ∧
    ((∃ e, ((OrderBook.new.place_limit_order 100 ⟨1, 5, Side.Ask, 0⟩).place_market_order
          ⟨2, 5, Side.Bid, 1⟩).result = Except.error e ∧
        ((OrderBook.new.place_limit_order 100 ⟨1, 5, Side.Ask, 0⟩).place_market_order
          ⟨2, 5, Side.Bid, 1⟩).book = OrderBook.new.place_limit_order 100 ⟨1, 5, Side.Ask, 0⟩ ∧
        ((OrderBook.new.place_limit_order 100 ⟨1, 5, Side.Ask, 0⟩).place_market_order
          ⟨2, 5, Side.Bid, 1⟩).order = ⟨2, 5, Side.Bid, 1⟩) ∨
      (∃ ms, ((OrderBook.new.place_limit_order 100 ⟨1, 5, Side.Ask, 0⟩).place_market_order
          ⟨2, 5, Side.Bid, 1⟩).result = Except.ok ms ∧
        ((OrderBook.new.place_limit_order 100 ⟨1, 5, Side.Ask, 0⟩).place_market_order
          ⟨2, 5, Side.Bid, 1⟩).order.size = 0 ∧ sumFilled ms = 5)) :=
  ⟨by norm_num,
    place_market_order_full_fill (OrderBook.new.place_limit_order 100 ⟨1, 5, Side.Ask, 0⟩)
      (Reachable.placeLimit 100 ⟨1, 5, Side.Ask, 0⟩ Reachable.new (by norm_num) (by decide))
      ⟨2, 5, Side.Bid, 1⟩ (by norm_num)⟩

/-! ### Claim C7 -/

/-- C7 counterexample: when the index entry exists but the Limit at the
recorded side and price is absent (a state reachable through the public
operations, because market fills leave stale index entries), `cancel_order`
returns `OrderNotFound`, not the `LimitNotFound` the claim requires —
`cancel_bid_order` / `cancel_ask_order` collapse every `None` into
`OrderNotFound`. -/
theorem cancel_missing_limit_returns_order_not_found :
    indexLookup 1 ((OrderBook.new.place_limit_order 100 ⟨1, 5, Side.Ask, 0⟩).place_market_order
        ⟨2, 5, Side.Bid, 1⟩).book.order_index = some (Side.Ask, 100) ∧
    findLimit 100 ((OrderBook.new.place_limit_order 100 ⟨1, 5, Side.Ask, 0⟩).place_market_order
        ⟨2, 5, Side.Bid, 1⟩).book.asks = none ∧
    (((OrderBook.new.place_limit_order 100 ⟨1, 5, Side.Ask, 0⟩).place_market_order
        ⟨2, 5, Side.Bid, 1⟩).book.cancel_order 1).result
      = Except.error (OrderBookError.OrderNotFound 1) := by
  refine ⟨?_, ?_, ?_⟩ <;>
    norm_num [OrderBook.new, OrderBook.place_limit_order, OrderBook.place_market_order,
      OrderBook.place_market_bid_order, OrderBook.place_market_ask_order,
      OrderBook.ensure_volume, marketSweep, pruneAt, pruneAll, sumFilled,
      Limit.fill, fillLoop, removeIds, Limit.remove_op, Limit.remove_order,
      removeByUuid, removeByTimestamp, match_orders, Limit.new, Limit.add_order,
      insertByUuid, insertByTimestamp, Limit.is_empty, Order.is_filled,
      indexInsert, indexRemove, indexLookup, findLimit, addToAsks, addToBids,
      OrderBook.cancel_order, OrderBook.cancel_bid_order, OrderBook.cancel_ask_order,
      cancelSide, ordersSum, List.foldl]

theorem findLimit_eq_none (price : ℚ) :
    ∀ (xs : List Limit), findLimit price xs = none ↔ ∀ l ∈ xs, l.price ≠ price := by
  intro xs
  induction xs with
  | nil => simp [findLimit]
  | cons l ls ih =>
    by_cases hp : l.price = price
    · simp [findLimit, hp]
    · simp [findLimit, hp, ih]

theorem indexRemove_none_iff (id : Nat) :
    ∀ (idx : List (Nat × Side × ℚ)),
      indexRemove id idx = none ↔ indexLookup id idx = none := by
  intro idx
  induction idx with
  | nil => simp [indexRemove, indexLookup]
  | cons e es ih =>
    by_cases he : e.1 = id
    · simp [indexRemove, indexLookup, he]
    · simp [indexRemove, indexLookup, he, Option.map_eq_none', ih]

theorem indexRemove_some (id : Nat) :
    ∀ (idx : List (Nat × Side × ℚ)) (v : Side × ℚ) (rest : List (Nat × Side × ℚ)),
      indexRemove id idx = some (v, rest) → indexLookup id idx = some v := by
  intro idx
  induction idx with
  | nil => intro v rest h; simp [indexRemove] at h
  | cons e es ih =>
    intro v rest h
    by_cases he : e.1 = id
    · rw [indexRemove, if_pos he] at h
      simp only [Option.some.injEq, Prod.mk.injEq] at h
      rw [indexLookup, if_pos he, h.1]
    · rw [indexRemove, if_neg he] at h
      obtain ⟨p, hp, heq⟩ := Option.map_eq_some'.mp h
      obtain ⟨v₀, rest₀⟩ := p
      simp only [Prod.mk.injEq] at heq
      rw [indexLookup, if_neg he]
      exact heq.1 ▸ ih v₀ rest₀ hp

theorem cancelSide_none_of_no_limit (id : Nat) (price : ℚ) :
    ∀ (xs : List Limit), findLimit price xs = none → cancelSide id price xs = none := by
  intro xs
  induction xs with
  | nil => intro _; rfl
  | cons l ls ih =>
    intro h
    rw [findLimit] at h
    split at h
    · exact absurd h (by simp)
    · rename_i hp
      rw [cancelSide, if_neg hp, ih h]
      rfl

theorem cancelSide_none_of_remove_none (id : Nat) (price : ℚ) :
    ∀ (xs : List Limit) (l : Limit), findLimit price xs = some l →
      l.remove_order id = none → cancelSide id price xs = none := by
  intro xs
  induction xs with
  | nil => intro l h; simp [findLimit] at h
  | cons l₀ ls ih =>
    intro l h hro
    rw [findLimit] at h
    split at h
    · rename_i hp
      simp only [Option.some.injEq] at h
      rw [cancelSide, if_pos hp, h, hro]
    · rename_i hp
      rw [cancelSide, if_neg hp, ih l h hro]
      rfl

theorem cancelSide_some_of_remove_some (id : Nat) (price : ℚ) :
    ∀ (xs : List Limit) (l : Limit) (o : Order) (l' : Limit),
      findLimit price xs = some l → l.remove_order id = some (o, l') →
      ∃ xs', cancelSide id price xs = some (o, xs') ∧
        (((xs.map Limit.price).Nodup → l'.is_empty = true → findLimit price xs' = none)) := by
  intro xs
  induction xs with
  | nil => intro l o l' h; simp [findLimit] at h
  | cons l₀ ls ih =>
    intro l o l' h hro
    rw [findLimit] at h
    split at h
    · rename_i hp
      simp only [Option.some.injEq] at h
      subst h
      refine ⟨if l'.is_empty then ls else l' :: ls, by rw [cancelSide, if_pos hp, hro], ?_⟩
      intro hnd he
      rw [if_pos he]
      rw [List.map_cons, List.nodup_cons] at hnd
      rw [findLimit_eq_none]
      intro x hx hxp
      have hm : x.price ∈ List.map Limit.price ls := List.mem_map_of_mem Limit.price hx
      rw [hxp, ← hp] at hm
      exact hnd.1 hm
    · rename_i hp
      obtain ⟨xs', h1, h2⟩ := ih l o l' h hro
      refine ⟨l₀ :: xs', by rw [cancelSide, if_neg hp, h1]; rfl, ?_⟩
      intro hnd he
      rw [List.map_cons, List.nodup_cons] at hnd
      rw [findLimit, if_neg hp]
      exact h2 hnd.2 he

/-- C7 (amended): `cancel_order`'s actual case analysis. An id absent from
`order_index` yields `OrderNotFound` with the book unmutated; an index entry
pointing at an absent Limit yields `OrderNotFound` (not the `LimitNotFound`
the spec prescribes — the side handlers collapse every `None` into
`OrderNotFound`); a Limit that does not contain the order yields
`OrderNotFound`; on success the removed order is returned, the side's
aggregate volume is decremented by its size, and an emptied Limit is removed
from the side's price collection. -/
theorem cancel_order_spec (b : OrderBook) (id : Nat) :
    (indexLookup id b.order_index = none →
      (b.cancel_order id).result = Except.error (OrderBookError.OrderNotFound id) ∧
      (b.cancel_order id).book = b) ∧
    (∀ sd price, indexLookup id b.order_index = some (sd, price) →
      (findLimit price (b.sideLimits sd) = none →
        (b.cancel_order id).result = Except.error (OrderBookError.OrderNotFound id)) ∧
      (∀ l, findLimit price (b.sideLimits sd) = some l →
        ((∀ x ∈ l.orders_by_uuid, x.id ≠ id) →
          (b.cancel_order id).result = Except.error (OrderBookError.OrderNotFound id)) ∧
        (∀ o l', l.remove_order id = some (o, l') →
          (b.cancel_order id).result = Except.ok o ∧
          (b.cancel_order id).book.sideVol sd = b.sideVol sd - o.size ∧
          (((b.sideLimits sd).map Limit.price).Nodup → l'.is_empty = true →
            findLimit price ((b.cancel_order id).book.sideLimits sd) = none)))) := by
  unfold OrderBook.cancel_order
  cases hir : indexRemove id b.order_index with
  | none =>
    have hl : indexLookup id b.order_index = none :=
      (indexRemove_none_iff id b.order_index).mp hir
    refine ⟨fun _ => ⟨rfl, rfl⟩, ?_⟩
    intro sd price hlk
    rw [hl] at hlk
    exact absurd hlk (by simp)
  | some p =>
    obtain ⟨⟨sd₀, price₀⟩, idx⟩ := p
    have hlk₀ : indexLookup id b.order_index = some (sd₀, price₀) :=
      indexRemove_some id b.order_index _ _ hir
    refine ⟨?_, ?_⟩
    · intro hnone
      rw [hlk₀] at hnone
      exact absurd hnone (by simp)
    · intro sd price hlk
      rw [hlk₀] at hlk
      simp only [Option.some.injEq, Prod.mk.injEq] at hlk
      obtain ⟨rfl, rfl⟩ := hlk
      cases sd₀ with
      | Bid =>
        simp only [OrderBook.sideLimits, OrderBook.sideVol]
        unfold OrderBook.cancel_bid_order
        refine ⟨?_, ?_⟩
        · intro hfl
          rw [cancelSide_none_of_no_limit id price₀ b.bids hfl]
        · intro l hfl
          refine ⟨?_, ?_⟩
          · intro hno
            rw [cancelSide_none_of_remove_none id price₀ b.bids l hfl
              ((remove_order_none_iff l id).mpr hno)]
          · intro o l' hro
            obtain ⟨xs', h1, h2⟩ :=
              cancelSide_some_of_remove_some id price₀ b.bids l o l' hfl hro
            rw [h1]
            exact ⟨rfl, rfl, h2⟩
      | Ask =>
        simp only [OrderBook.sideLimits, OrderBook.sideVol]
        unfold OrderBook.cancel_ask_order
        refine ⟨?_, ?_⟩
        · intro hfl
          rw [cancelSide_none_of_no_limit id price₀ b.asks hfl]
        · intro l hfl
          refine ⟨?_, ?_⟩
          · intro hno
            rw [cancelSide_none_of_remove_none id price₀ b.asks l hfl
              ((remove_order_none_iff l id).mpr hno)]
          · intro o l' hro
            obtain ⟨xs', h1, h2⟩ :=
              cancelSide_some_of_remove_some id price₀ b.asks l o l' hfl hro
            rw [h1]
            exact ⟨rfl, rfl, h2⟩

theorem cancel_order_spec_witness :
    (OrderBook.new.cancel_order 7).result
        = Except.error (OrderBookError.OrderNotFound 7) ∧
    (OrderBook.new.cancel_order 7).book = OrderBook.new :=
  (cancel_order_spec OrderBook.new 7).1 rfl

/-! ### Claim C10 -/

/-- The two indices of a Limit agree up to permutation on the
(timestamp, id) keys — sizes may differ, because `fill` mutates sizes only
in `orders_by_uuid` while `orders_by_timestamp` holds stale clones. -/
def LInv (l : Limit) : Prop :=
  ((l.orders_by_uuid.map tsKey).Perm (l.orders_by_timestamp.map tsKey)) ∧
  (limitIds l).Nodup

theorem tsKey_ne_of_not_eq {x o : Order} (h : ¬(o.timestamp = x.timestamp ∧ o.id = x.id)) :
    tsKey o ≠ tsKey x := by
  intro hc
  unfold tsKey at hc
  rw [Prod.mk.injEq] at hc
  exact h hc

theorem insertByTimestamp_map_fresh (o : Order) :
    ∀ (xs : List Order), (∀ x ∈ xs, ¬(x.timestamp = o.timestamp ∧ x.id = o.id)) →
      ((insertByTimestamp o xs).map tsKey).Perm (tsKey o :: xs.map tsKey) := by
  intro xs
  induction xs with
  | nil => intro _; exact List.Perm.refl _
  | cons x xs ih =>
    intro h
    rw [insertByTimestamp]
    split
    · exact List.Perm.refl _
    · split
      · rename_i hlt heq
        exact absurd ⟨heq.1.symm, heq.2.symm⟩ (h x (List.mem_cons_self x xs))
      · rw [List.map_cons, List.map_cons]
        have := (ih (fun y hy => h y (List.mem_cons_of_mem x hy))).cons (tsKey x)
        exact this.trans (List.Perm.swap (tsKey o) (tsKey x) (xs.map tsKey))

theorem removeByTimestamp_map (o : Order) :
    ∀ (xs : List Order),
      (removeByTimestamp o xs).map tsKey = eraseKey (tsKey o) (xs.map tsKey) := by
  intro xs
  induction xs with
  | nil => simp [removeByTimestamp, eraseKey]
  | cons x xs ih =>
    rw [removeByTimestamp]
    split
    · rename_i heq
      have hk : tsKey x = tsKey o := by
        unfold tsKey
        rw [Prod.mk.injEq]
        exact ⟨heq.1.symm, heq.2.symm⟩
      rw [List.map_cons, eraseKey, if_pos hk]
    · rename_i hne
      rw [List.map_cons, List.map_cons, eraseKey,
        if_neg (tsKey_ne_of_not_eq hne).symm, ih]

theorem eraseKey_append_right (k : Int × Nat) :
    ∀ (l₁ l₂ : List (Int × Nat)), k ∉ l₁ →
      eraseKey k (l₁ ++ l₂) = l₁ ++ eraseKey k l₂ := by
  intro l₁
  induction l₁ with
  | nil => intro l₂ _; rfl
  | cons x xs ih =>
    intro l₂ h
    rw [List.cons_append, eraseKey,
      if_neg (fun hc => h (by rw [← hc]; exact List.mem_cons_self x xs)), ih l₂
      (fun hc => h (List.mem_cons_of_mem x hc)), List.cons_append]

theorem removeByUuid_map_tsKey (id : Nat) (os : List Order) (o : Order) (rest : List Order)
    (h : removeByUuid id os = some (o, rest)) :
    rest.map tsKey = eraseKey (tsKey o) (os.map tsKey) := by
  obtain ⟨pre, post, h1, h2, h3, h4⟩ := removeByUuid_eq_some id os o rest h
  rw [h1, h2, List.map_append, List.map_append, List.map_cons,
    eraseKey_append_right _ _ _ ?_, eraseKey, if_pos rfl]
  intro hc
  obtain ⟨x, hx, hxe⟩ := List.mem_map.mp hc
  have hid : x.id = o.id := by
    have := congrArg Prod.snd hxe
    simpa [tsKey] using this
  exact h4 x hx (hid.trans h3)

theorem perm_eraseKey (k : Int × Nat) :
    ∀ {l₁ l₂ : List (Int × Nat)}, l₁.Perm l₂ →
      (eraseKey k l₁).Perm (eraseKey k l₂) := by
  intro l₁ l₂ h
  induction h with
  | nil => exact List.Perm.refl _
  | cons x h ih =>
    rw [eraseKey, eraseKey]
    split
    · assumption
    · exact ih.cons x
  | swap x y l =>
    simp only [eraseKey]
    split_ifs with hy hx hx
    · subst hy
      subst hx
      exact List.Perm.refl _
    · exact List.Perm.refl _
    · exact List.Perm.refl _
    · exact List.Perm.swap x y (eraseKey k l)
  | trans h1 h2 ih1 ih2 => exact ih1.trans ih2

theorem linv_new (price : ℚ) : LInv (Limit.new price) := by
  constructor <;> simp [Limit.new, limitIds]

theorem linv_add (l : Limit) (o : Order) (hL : LInv l) (hfresh : o.id ∉ limitIds l) :
    LInv (l.add_order o) := by
  have hts_fresh : ∀ x ∈ l.orders_by_timestamp, ¬(x.timestamp = o.timestamp ∧ x.id = o.id) := by
    intro x hx hc
    apply hfresh
    have hkey : tsKey x ∈ l.orders_by_timestamp.map tsKey := List.mem_map_of_mem tsKey hx
    rw [← hL.1.mem_iff] at hkey
    obtain ⟨y, hy, hye⟩ := List.mem_map.mp hkey
    have hid : y.id = x.id := by
      have := congrArg Prod.snd hye
      simpa [tsKey] using this
    rw [← hc.2, ← hid]
    exact List.mem_map_of_mem Order.id hy
  constructor
  · show ((l.add_order o).orders_by_uuid.map tsKey).Perm
      ((insertByTimestamp o l.orders_by_timestamp).map tsKey)
    rw [add_order_uuid l o hfresh, List.map_append]
    refine (List.perm_append_singleton (tsKey o) (l.orders_by_uuid.map tsKey)).trans ?_
    refine (hL.1.cons (tsKey o)).trans ?_
    exact (insertByTimestamp_map_fresh o l.orders_by_timestamp hts_fresh).symm
  · show ((l.add_order o).orders_by_uuid.map Order.id).Nodup
    rw [add_order_uuid l o hfresh, List.map_append, List.nodup_append]
    refine ⟨hL.2, List.nodup_singleton _, ?_⟩
    intro a ha hb
    rw [List.map_singleton, List.mem_singleton] at hb
    exact hfresh (hb ▸ ha)

theorem linv_remove_op (l : Limit) (id : Nat) (hL : LInv l) : LInv (l.remove_op id) := by
  unfold Limit.remove_op
  cases hro : l.remove_order id with
  | none => exact hL
  | some p =>
    obtain ⟨o, l'⟩ := p
    unfold Limit.remove_order at hro
    cases hru : removeByUuid id l.orders_by_uuid with
    | none => rw [hru] at hro; simp at hro
    | some q =>
      obtain ⟨o₀, rest⟩ := q
      rw [hru] at hro
      simp only [Option.some.injEq, Prod.mk.injEq] at hro
      obtain ⟨rfl, rfl⟩ := hro
      constructor
      · show (rest.map tsKey).Perm ((removeByTimestamp o₀ l.orders_by_timestamp).map tsKey)
        rw [removeByUuid_map_tsKey id l.orders_by_uuid o₀ rest hru,
          removeByTimestamp_map o₀ l.orders_by_timestamp]
        exact perm_eraseKey (tsKey o₀) hL.1
      · show (rest.map Order.id).Nodup
        obtain ⟨pre, post, h1, h2, _, _⟩ := removeByUuid_eq_some id _ _ _ hru
        have hnd := hL.2
        unfold limitIds at hnd
        rw [h1] at hnd
        rw [h2]
        refine hnd.sublist ?_
        rw [List.map_append, List.map_append, List.map_cons]
        exact (List.sublist_cons_self o₀.id (post.map Order.id)).append_left (pre.map Order.id)

theorem linv_removeIds (ids : List Nat) : ∀ (l : Limit), LInv l → LInv (removeIds l ids) := by
  induction ids with
  | nil => intro l hL; exact hL
  | cons id ids ih =>
    intro l hL
    rw [removeIds_cons]
    exact ih (l.remove_op id) (linv_remove_op l id hL)

theorem linv_fill (l : Limit) (aggr : Order) (hL : LInv l) : LInv ((l.fill aggr).limit) := by
  rw [fill_limit_def]
  apply linv_removeIds
  have hmaps := fillLoop_residents_maps l.price l.orders_by_uuid aggr
  constructor
  · show (((fillLoop l.price aggr l.orders_by_uuid).residents.map tsKey)).Perm
      (l.orders_by_timestamp.map tsKey)
    rw [hmaps.2.2]
    exact hL.1
  · show (((fillLoop l.price aggr l.orders_by_uuid).residents.map Order.id)).Nodup
    rw [hmaps.1]
    exact hL.2

theorem limitReachable_linv {l : Limit} (h : LimitReachable l) : LInv l := by
  induction h with
  | new price => exact linv_new price
  | add o _ hfresh ih => exact linv_add _ o ih hfresh
  | remove id _ ih => exact linv_remove_op _ id ih
  | fillStep a _ ih => exact linv_fill _ a ih

/-- C10: after every sequence of `add_order`, `remove_order`, and `fill`
operations on a Limit (respecting `add_order`'s freshness contract), the
identity index and the arrival-ordered index hold exactly the same set of
order ids — removal from the arrival-ordered index works even after sizes
were mutated by fills, because `OrderByTimestamp::cmp` compares only
(timestamp, id). -/
theorem limit_indices_same_ids (l : Limit) (h : LimitReachable l) :
    ∀ id, id ∈ l.orders_by_uuid.map Order.id ↔ id ∈ l.orders_by_timestamp.map Order.id := by
  intro id
  have hp := (limitReachable_linv h).1.map Prod.snd
  rw [List.map_map, List.map_map] at hp
  have huuid : l.orders_by_uuid.map (Prod.snd ∘ tsKey) = l.orders_by_uuid.map Order.id := rfl
  have hts : l.orders_by_timestamp.map (Prod.snd ∘ tsKey)
      = l.orders_by_timestamp.map Order.id := rfl
  rw [huuid, hts] at hp
  exact hp.mem_iff

theorem limit_indices_same_ids_witness :
    (1 ∈ (((Limit.new 100).add_order ⟨1, 5, Side.Ask, 0⟩).fill
        ⟨2, 3, Side.Bid, 1⟩).limit.orders_by_uuid.map Order.id ↔
      1 ∈ (((Limit.new 100).add_order ⟨1, 5, Side.Ask, 0⟩).fill
        ⟨2, 3, Side.Bid, 1⟩).limit.orders_by_timestamp.map Order.id) :=
  limit_indices_same_ids _
    (LimitReachable.fillStep ⟨2, 3, Side.Bid, 1⟩
      (LimitReachable.add ⟨1, 5, Side.Ask, 0⟩ (LimitReachable.new 100) (by decide))) 1

end Yolo
